import Mathlib

/-!
Verification of the mathNEWS `prepress` article-transformation pipeline.

This file shallowly embeds the document tree model and the post-processing
passes of `prepress.py` / `util.py` in Lean 4 and proves properties about
them.  The tree mirrors the BeautifulSoup tree the Python code manipulates:
a node is either a text node (a `NavigableString`) or an element with a tag
name, an attribute list and a list of children.  Passes are modelled as
pure functions on the list of root children of an article's content tree.

Modelling notes, justified against the Python sources:
  * `find_all(string=True)` returns an eagerly-computed snapshot of all text
    nodes in document (pre)order; the per-pass loops mutate only the slot of
    the text node being processed (via `replace_text_with_tag` splices or
    `replace_with` of a single string), so passes are modelled as preorder
    traversals threading pass-local state.
  * `replace_text_with_tag` finds the index of the text node with Python
    `list.index`, which compares `NavigableString`s to their *string value*,
    so the index found is that of the first sibling text node with an equal
    string, not necessarily the node being replaced.  The model reproduces
    this (`firstEqIdx`).
  * `str.partition` splits on the first occurrence of the separator and
    raises `ValueError` on an empty separator; this is `strPartition` below
    (with `none` playing the role of the exception).
  * External collaborators (network fetches, the LaTeX compiler, the local
    file system) are passed in as function parameters, as the spec's
    `CollaboratorBundle` prescribes.
-/

set_option maxRecDepth 8000

/-- A BeautifulSoup-style document node: a `NavigableString` or a `Tag` with a
name, attributes and children.  Parent back-references are implicit: all
traversals carry the ancestor context they need. -/
inductive Node where
  | text (s : String)
  | elem (name : String) (attrs : List (String × String)) (children : List Node)

mutual
/-- Boolean equality on nodes (children compared pointwise). -/
def nbeq : Node → Node → Bool
  | .text s, .text t => s == t
  | .elem n a cs, .elem m b ds => n == m && a == b && nlbeq cs ds
  | _, _ => false
def nlbeq : List Node → List Node → Bool
  | [], [] => true
  | c :: cs, d :: ds => nbeq c d && nlbeq cs ds
  | _, _ => false
end

/-- An article's content tree is the list of children of the soup's root
(`[document]`) node. -/
abbrev Doc := List Node

/-- From `util.py`: `VERBATIM_TAGS = ("pre", "code")`. -/
def VERBATIM_TAGS : List String := ["pre", "code"]

/-- From `util.py`: `LINK_TAG = "link"`. -/
def LINK_TAG : String := "link"

/-- From `util.py`: the Unicode LINE SEPARATOR character U+2028. -/
def LINE_SEPARATOR : String := "\u2028"

/-- From `util.py`: `keep_verbatim(tag)` is true when the tag itself or one of
its ancestors is named `pre` or `code`.  For a *text* node (whose `name` is
`None`) this reduces to: some ancestor is a verbatim tag.  In the traversals
below the ancestor part is carried as the flag `inV`, so the test for a text
node is just `inV`; for an element named `n` it is `inV || n ∈ VERBATIM_TAGS`. -/
def keep_verbatim (inV : Bool) (name : Option String) : Bool :=
  inV || (match name with | some n => VERBATIM_TAGS.contains n | none => false)

/-- From `util.py`: `is_link_component(tag)`, same shape as `keep_verbatim`
with the single tag name `link`. -/
def is_link_component (inL : Bool) (name : Option String) : Bool :=
  inL || (match name with | some n => n == LINK_TAG | none => false)

mutual
/-- The string contents of all text nodes lying inside a verbatim region
(inside a `pre` or `code` element), in document order.  `inV` records whether
an ancestor was a verbatim tag. -/
def verbatimTexts (inV : Bool) : Node → List String
  | .text s => if inV then [s] else []
  | .elem n _ cs => verbatimTextsL (inV || VERBATIM_TAGS.contains n) cs
def verbatimTextsL (inV : Bool) : List Node → List String
  | [] => []
  | c :: cs => verbatimTexts inV c ++ verbatimTextsL inV cs
end

mutual
/-- The string contents of all text nodes lying inside a `link` element, in
document order. -/
def linkTexts (inL : Bool) : Node → List String
  | .text s => if inL then [s] else []
  | .elem n _ cs => linkTextsL (inL || n == LINK_TAG) cs
def linkTextsL (inL : Bool) : List Node → List String
  | [] => []
  | c :: cs => linkTexts inL c ++ linkTextsL inL cs
end

mutual
/-- Concatenated text content of a node (BeautifulSoup `get_text()`). -/
def textContent : Node → String
  | .text s => s
  | .elem _ _ cs => textContentL cs
def textContentL : List Node → String
  | [] => ""
  | c :: cs => textContent c ++ textContentL cs
end

mutual
/-- The text content of every `sup` element, in document order (each `sup`
produced by `add_footnotes` holds a single text child, its displayed
footnote number). -/
def supTexts : Node → List String
  | .text _ => []
  | .elem n _ cs => (if n == "sup" then [textContentL cs] else []) ++ supTextsL cs
def supTextsL : List Node → List String
  | [] => []
  | c :: cs => supTexts c ++ supTextsL cs
end

/-- Splits `t` at the first occurrence of `sub`: `some (b, e)` with
`b ++ sub ++ e = t`, or `none` when `sub` does not occur in `t`. -/
def splitAtSub (sub : List Char) : List Char → Option (List Char × List Char)
  | [] => if sub.isEmpty then some ([], []) else none
  | c :: t2 =>
    if sub.isPrefixOf (c :: t2) then some ([], (c :: t2).drop sub.length)
    else (splitAtSub sub t2).map (fun p => (c :: p.1, p.2))

/-- Python `t.partition(sep)` restricted to the two components the source
uses (`begin, _, end`).  `none` models the `ValueError` Python raises on an
empty separator; when `sep` does not occur, Python returns `(t, "", "")`. -/
def strPartition (t sep : String) : Option (String × String) :=
  if sep.data.isEmpty then none
  else
    match splitAtSub sep.data t.data with
    | some (b, e) => some (String.mk b, String.mk e)
    | none => some (t, "")

/-- The index Python's `parent.contents.index(text_tag)` finds: comparison of
a `NavigableString` with a child is string-value equality (and is false
against `Tag` children), so this is the index of the *first* text child whose
string equals `t`. -/
def firstEqIdx (cs : List Node) (t : String) : Option Nat :=
  cs.findIdx? (fun c => match c with | .text s => s == t | _ => false)

/-- From `prepress.py` lines 213-231, at the granularity of the parent's
children list.  `cs` is the parent's `contents`, `i` the position of the text
node being spliced (Python holds the node itself; the model identifies it by
its true index).  Mirrors the source exactly:
  * `tag_idx = parent.contents.index(text_tag)` — value-equality search
    (`firstEqIdx`), *not* the identity index;
  * `begin, _, end = text_tag.partition(sub_text)`;
  * `text_tag.replace_with(begin)` — replace slot `i` by the begin text;
  * `parent.insert(tag_idx + 1, repl_tag)`; `parent.insert(tag_idx + 2, end)`;
  * returns the `end` node.
Both `begin` and `end` are inserted even when empty (BeautifulSoup inserts
empty `NavigableString`s without complaint).  `none` models the exceptions
Python could raise (`ValueError` from `partition("")` or from a failed
`index`, or `i` not denoting a text node). -/
def replace_text_with_tag (subText : String) (repl : Node) (cs : List Node) (i : Nat) :
    Option (List Node × Node) :=
  match cs.get? i with
  | some (.text t) =>
    match firstEqIdx cs t with
    | some tagIdx =>
      match strPartition t subText with
      | some (b, e) =>
        let cs1 := cs.set i (.text b)
        let cs2 := cs1.insertIdx (tagIdx + 1) repl
        let cs3 := cs2.insertIdx (tagIdx + 2) (.text e)
        some (cs3, .text e)
      | none => none
    | none => none
  | _ => none

/-- Maximal run of decimal digits at the head of the character list, and the
remainder.  Models `\d*` (the articles use ASCII digits). -/
def digitRun : List Char → List Char × List Char
  | [] => ([], [])
  | c :: cs =>
    if c.isDigit then
      let p := digitRun cs
      (c :: p.1, p.2)
    else ([], c :: cs)

/-- Python `int` on a non-empty string of decimal digits. -/
def digitsToNat (ds : List Char) : Nat :=
  ds.foldl (fun a c => a * 10 + (c.toNat - 48)) 0

/-- Fuelled scanner for `re.finditer(r"\[(\d*)\]", s)`: at each position, a
literal `[`, a greedy digit run and a literal `]`; scanning resumes after a
match (non-overlapping) or at the next character after a failed start.
Returns `(match[0], match[1])` pairs in order.  The fuel is an upper bound on
the number of scanning steps; `bracketMatches` supplies `length + 1`. -/
def bracketMatchesF : Nat → List Char → List (String × String)
  | 0, _ => []
  | _ + 1, [] => []
  | fuel + 1, c :: cs =>
    if c == '[' then
      match digitRun cs with
      | (d, ']' :: r2) =>
        (String.mk ('[' :: (d ++ [']'])), String.mk d) :: bracketMatchesF fuel r2
      | _ => bracketMatchesF fuel cs
    else bracketMatchesF fuel cs

/-- All matches of `\[(\d*)\]` in `s`, as `(match[0], match[1])`, in order. -/
def bracketMatches (s : String) : List (String × String) :=
  bracketMatchesF (s.data.length + 1) s.data

/-- The splice operations `add_footnotes` performs for the matches `ms` of
one text node, starting from counter `c` (from `prepress.py` lines 743-755):
`footnote_num` is the counter unless the bracket holds a literal number;
the sup tag's string is `str(footnote_num)`; the counter increments exactly
when the bracket was empty or the number equals the counter. -/
def footnoteOpsGo (c : Nat) : List (String × String) → Nat × List (String × Node)
  | [] => (c, [])
  | m :: ms =>
    let num := if m.2.length != 0 then digitsToNat m.2.data else c
    let c2 := if m.2.length == 0 || num == c then c + 1 else c
    let r := footnoteOpsGo c2 ms
    (r.1, (m.1, .elem "sup" [] [.text (toString num)]) :: r.2)

/-- Per-text-node operation list for `add_footnotes`: the matches are found
by `finditer` on the original string, then each is spliced in order. -/
def footnoteOps (c : Nat) (s : String) : Nat × List (String × Node) :=
  footnoteOpsGo c (bracketMatches s)

/-- Applies a list of splice operations `(match[0], repl_tag)` to the
evolving children list, exactly as the per-match loops in `prepress.py` do:
each operation calls `replace_text_with_tag` on the current text node and
continues on the returned `end` node.  The full children list is
`pref ++ rest`; the current text node lives at index `i` inside `pref`, and
since the value-equality index `tag_idx` satisfies `tag_idx ≤ i < pref.length`
(the current node itself matches), all three mutations of
`replace_text_with_tag` land inside `pref`, so `rest` (the still-unprocessed
later siblings) is never touched; the continuation node `end` sits at index
`tag_idx + 2`.  `none` models an uncaught Python exception. -/
def applyOps : List (String × Node) → List Node → Nat → List Node → Option (List Node)
  | [], pref, _, _ => some pref
  | (lit, tag) :: ops, pref, i, rest =>
    match pref.get? i with
    | some (.text t) =>
      match firstEqIdx (pref ++ rest) t with
      | some tagIdx =>
        match strPartition t lit with
        | some (b, e) =>
          let p1 := pref.set i (.text b)
          let p2 := p1.insertIdx (tagIdx + 1) tag
          let p3 := p2.insertIdx (tagIdx + 2) (.text e)
          applyOps ops p3 (tagIdx + 2) rest
        | none => none
      | none => none
    | _ => none

mutual
/-- One child of a splicing pass's traversal: elements recurse into their
children (extending the verbatim flag); text nodes are handled by
`spliceChildren` at the parent level. -/
def spliceElem (opsF : σ → String → σ × List (String × Node)) (inV : Bool) (st : σ) :
    Node → Option (Node × σ)
  | .text s => some (.text s, st)
  | .elem n a kids =>
    match spliceChildren opsF (inV || VERBATIM_TAGS.contains n) st [] kids with
    | some p => some (.elem n a p.1, p.2)
    | none => none
/-- Traversal engine shared by the splicing passes (`add_footnotes`,
`replace_inline_code`, `compile_latex`, `replace_links`): walk the text nodes
in document order (the `find_all(string=True)` snapshot), skip the ones inside
verbatim regions (`keep_verbatim`), and for each other text node apply the
pass's splice operations, threading the pass-local state `st`.  `acc` is the
already-processed prefix of the current children list (the splices of the
current node only ever touch the prefix, never the unprocessed `rest`). -/
def spliceChildren (opsF : σ → String → σ × List (String × Node)) (inV : Bool) (st : σ)
    (acc : List Node) : List Node → Option (List Node × σ)
  | [] => some (acc, st)
  | .text s :: rest =>
    if inV then spliceChildren opsF inV st (acc ++ [.text s]) rest
    else
      let p := opsF st s
      match applyOps p.2 (acc ++ [.text s]) acc.length rest with
      | some pref2 => spliceChildren opsF inV p.1 pref2 rest
      | none => none
  | .elem n a kids :: rest =>
    match spliceElem opsF inV st (.elem n a kids) with
    | some q => spliceChildren opsF inV q.2 (acc ++ [q.1]) rest
    | none => none
end

/-- From `prepress.py` lines 734-756: `add_footnotes`, with the per-article
counter initialised to 1. -/
def add_footnotes (doc : Doc) : Option Doc :=
  (spliceChildren footnoteOps false 1 [] doc).map (·.1)

mutual
/-- The bracket contents (`match[1]`) of all footnote markers in the
non-verbatim text nodes of a tree, in document order. -/
def markersN (inV : Bool) : Node → List String
  | .text s => if inV then [] else (bracketMatches s).map (·.2)
  | .elem n _ cs => markersL (inV || VERBATIM_TAGS.contains n) cs
def markersL (inV : Bool) : List Node → List String
  | [] => []
  | c :: cs => markersN inV c ++ markersL inV cs
end

/-- The claim's counter-update rule for one marker: the displayed number is
the literal when present, the counter otherwise; the counter advances to the
displayed number plus one exactly when the bracket was empty or its literal
number equals the counter's current value, and is unchanged otherwise. -/
def footnoteStep (c : Nat) (m : String) : Nat :=
  let disp := if m.length ≠ 0 then digitsToNat m.data else c
  if m.length = 0 ∨ disp = c then disp + 1 else c

/-- The footnote-numbering rule exactly as the claim states it, as a scan
over the bracket contents of the markers in document order (the counter
starts at 1 for an article). -/
def footnoteSpecNums (c : Nat) : List String → List Nat
  | [] => []
  | m :: ms =>
    (if m.length ≠ 0 then digitsToNat m.data else c) :: footnoteSpecNums (footnoteStep c m) ms

mutual
/-- The splice operations a `spliceChildren` traversal emits for one node,
with the final pass state: text nodes inside verbatim regions emit nothing;
other text nodes emit `opsF st s`; elements recurse. -/
def emitN (opsF : σ → String → σ × List (String × Node)) (inV : Bool) (st : σ) :
    Node → σ × List (String × Node)
  | .text s => if inV then (st, []) else opsF st s
  | .elem n _ kids => emitL opsF (inV || VERBATIM_TAGS.contains n) st kids
def emitL (opsF : σ → String → σ × List (String × Node)) (inV : Bool) (st : σ) :
    List Node → σ × List (String × Node)
  | [] => (st, [])
  | c :: cs =>
    let p := emitN opsF inV st c
    let q := emitL opsF inV p.1 cs
    (q.1, p.2 ++ q.2)
end

mutual
/-- Structural size of a node, used as an induction measure. -/
def nsize : Node → Nat
  | .text _ => 1
  | .elem _ _ cs => 1 + nlsize cs
def nlsize : List Node → Nat
  | [] => 0
  | c :: cs => nsize c + nlsize cs
end

mutual
/-- True when the tree contains no `sup` element (the footnote pass then
creates every `sup` present in its output). -/
def noSupN : Node → Bool
  | .text _ => true
  | .elem n _ cs => !(n == "sup") && noSupL cs
def noSupL : List Node → Bool
  | [] => true
  | c :: cs => noSupN c && noSupL cs
end

/-- The straight double-quote character. -/
def dquoteChar : Char := Char.ofNat 34

/-- The straight single-quote (apostrophe) character. -/
def squoteChar : Char := Char.ofNat 39

/-- Modelled from the spec: `plugins/smart_quotes.py` (the module providing
`get_quote_direction`) is not among the repository sources here.  Spec 4.5
gives the rule: "a quote is *opening* if preceded by nothing, whitespace, or
an opening-punctuation character, otherwise *closing*".  Opening punctuation
is taken to be opening brackets and already-resolved opening quote glyphs.
The call site passes both neighbours; the spec's rule consults only the
preceding one.  `true` means opening. -/
def get_quote_direction (before : Option Char) (_afterC : Option Char) : Bool :=
  match before with
  | none => true
  | some c => c.isWhitespace || c ∈ ['(', '[', Char.ofNat 123, '“', '‘']

/-- Modelled from the spec: the left/right double directional quote glyph for
the given direction (`true` = opening). -/
def get_double_quote (opening : Bool) : Char :=
  if opening then '“' else '”'

/-- Modelled from the spec: the left/right single directional quote glyph. -/
def get_single_quote (opening : Bool) : Char :=
  if opening then '‘' else '’'

/-- The loop body of `replace_smart_quotes` (`prepress.py` lines 566-579):
Python iterates `enumerate(char_array)` over the *mutating* list, so `before`
reads the already-replaced previous character while `char` and `after` read
the original ones (only indices below `idx` have been written).  One step
processes index `idx`; the fuel counts the remaining steps. -/
def rsqFrom : Nat → Nat → List Char → List Char
  | 0, _, arr => arr
  | fuel + 1, idx, arr =>
    let char := arr.getD idx ' '
    let before := if idx = 0 then none else some (arr.getD (idx - 1) ' ')
    let afterC := if idx = arr.length - 1 then none else some (arr.getD (idx + 1) ' ')
    let direction := get_quote_direction before afterC
    let arr2 :=
      if char == dquoteChar then arr.set idx (get_double_quote direction)
      else if char == squoteChar then arr.set idx (get_single_quote direction)
      else arr
    rsqFrom fuel (idx + 1) arr2

/-- From `prepress.py` lines 566-579: `replace_smart_quotes`. -/
def replace_smart_quotes (s : String) : String :=
  String.mk (rsqFrom s.data.length 0 s.data)

mutual
/-- The `find_all(string=True)` snapshot of a tree: every text node's string
paired with its `keep_verbatim` status, in document order. -/
def textsWithFlags (inV : Bool) : Node → List (String × Bool)
  | .text s => [(s, inV)]
  | .elem n _ cs => textsWithFlagsL (inV || VERBATIM_TAGS.contains n) cs
def textsWithFlagsL (inV : Bool) : List Node → List (String × Bool)
  | [] => []
  | c :: cs => textsWithFlags inV c ++ textsWithFlagsL inV cs
end

/-- The new string `add_smart_quotes` (`prepress.py` lines 582-614) computes
for the text node at snapshot index `idx`: verbatim nodes are skipped; for
the others one character of context is glued on from each neighbouring
snapshot entry (the *original* neighbour strings — the snapshot is taken
before any replacement), the quotes are resolved, and the glued characters
are stripped back off.  `none` models the `IndexError` Python raises when a
consulted neighbour string is empty (`before_tag[-1]` / `after_tag[0]`). -/
def asqNewText (tags : List (String × Bool)) (idx : Nat) : Option String :=
  match tags.get? idx with
  | none => none
  | some (s, inV) =>
    if inV then some s
    else
      let beforeTag := if idx = 0 then none else (tags.get? (idx - 1)).map (fun p => p.1)
      let afterTag :=
        if idx = tags.length - 1 then none else (tags.get? (idx + 1)).map (fun p => p.1)
      let glued1? : Option String :=
        match beforeTag with
        | none => some s
        | some bs => (bs.data.getLast?).map (fun c => String.mk [c] ++ s)
      match glued1? with
      | none => none
      | some g1 =>
        let glued2? : Option String :=
          match afterTag with
          | none => some g1
          | some afts => (afts.data.head?).map (fun c => g1 ++ String.mk [c])
        match glued2? with
        | none => none
        | some g2 =>
          let rep := replace_smart_quotes g2
          let rep1 := if beforeTag.isSome then String.mk rep.data.tail else rep
          let rep2 := if afterTag.isSome then String.mk rep1.data.dropLast else rep1
          some rep2

mutual
/-- Rebuilds the tree for `add_smart_quotes`: the text node at snapshot
index `k` is replaced by its resolved string. -/
def asqRebuildN (tags : List (String × Bool)) : Nat → Node → Option (Node × Nat)
  | k, .text _ => (asqNewText tags k).map (fun s2 => (Node.text s2, k + 1))
  | k, .elem n a cs => (asqRebuildL tags k cs).map (fun p => (Node.elem n a p.1, p.2))
def asqRebuildL (tags : List (String × Bool)) : Nat → List Node → Option (List Node × Nat)
  | k, [] => some ([], k)
  | k, c :: cs =>
    match asqRebuildN tags k c with
    | some q => (asqRebuildL tags q.2 cs).map (fun p => (q.1 :: p.1, p.2))
    | none => none
end

/-- From `prepress.py` lines 582-614: `add_smart_quotes`.  The pass snapshots
all text nodes (verbatim ones included — they are skipped for replacement but
still donate context characters), resolves each non-verbatim node against its
neighbours' original content, and replaces the nodes in place.  Note the pass
consults only `keep_verbatim`, never `is_link_component`. -/
def add_smart_quotes (doc : Doc) : Option Doc :=
  (asqRebuildL (textsWithFlagsL false doc) 0 doc).map (fun p => p.1)

/-- Backtracking candidates for the dash regex `(?<=\d) ?--? ?(?=\d)`, in
Python's greedy priority order (leading space first, then two dashes, then
trailing space). -/
def dashCandidates : List (List Char) :=
  [[' ', '-', '-', ' '], [' ', '-', '-'], [' ', '-', ' '], [' ', '-'],
   ['-', '-', ' '], ['-', '-'], ['-', ' '], ['-']]

/-- First dash candidate matching at the head of `rest` whose next character
(the lookahead) is a digit; returns the consumed length. -/
def findDashCand (rest : List Char) : List (List Char) → Option Nat
  | [] => none
  | cand :: cs =>
    if cand.isPrefixOf rest then
      match (rest.drop cand.length).head? with
      | some c => if c.isDigit then some cand.length else findDashCand rest cs
      | none => findDashCand rest cs
    else findDashCand rest cs

/-- `re.sub(r"(?<=\d) ?--? ?(?=\d)", "–", s)`: left-to-right non-overlapping
scan; `prev` is the previous character of the *original* string (the
lookbehind).  The fuel counts remaining characters. -/
def dashScan : Nat → Option Char → List Char → List Char
  | 0, _, rest => rest
  | _ + 1, _, [] => []
  | fuel + 1, prev, c :: cs =>
    let digitPrev := match prev with | some p => p.isDigit | none => false
    match (if digitPrev then findDashCand (c :: cs) dashCandidates else none) with
    | some k =>
      '–' :: dashScan fuel (some ((c :: cs).getD (k - 1) c)) ((c :: cs).drop k)
    | none => c :: dashScan fuel (some c) cs

/-- Python `str.replace` / Lean `String.replace` on character lists, with
fuel (the fuel counts consumed characters, so `length + 1` always suffices):
leftmost non-overlapping matches of `pat` are replaced by `rep`, scanning
resuming after the replacement.  All patterns used by the passes are
non-empty literals. -/
def replaceAllF (pat rep : List Char) : Nat → List Char → List Char
  | 0, rest => rest
  | _ + 1, [] => []
  | fuel + 1, c :: cs =>
    if pat.isPrefixOf (c :: cs) ∧ pat.length ≠ 0 then
      rep ++ replaceAllF pat rep fuel ((c :: cs).drop pat.length)
    else c :: replaceAllF pat rep fuel cs

/-- `s.replace pat rep` (kernel-computable form). -/
def strReplaceAll (s pat rep : String) : String :=
  String.mk (replaceAllF pat.data rep.data (s.data.length + 1) s.data)

/-- The per-text-node string transformation of `replace_dashes`
(`prepress.py` lines 552-561): the numeric-range re.sub followed by the
chain of `str.replace` calls, in source order. -/
def replace_dashes_text (s : String) : String :=
  let s0 := String.mk (dashScan s.data.length none s.data)
  let s1 := strReplaceAll s0 " - " "—"
  let s2 := strReplaceAll s1 " --- " "—"
  let s3 := strReplaceAll s2 "---" "—"
  let s4 := strReplaceAll s3 " -- " "—"
  let s5 := strReplaceAll s4 "--" "—"
  let s6 := strReplaceAll s5 " — " "—"
  strReplaceAll s6 "—" " — "

mutual
/-- Shared engine of the per-text-node string passes: applies `f` to every
text node not excluded by the guards (`useV`: skip `keep_verbatim` nodes,
`useL`: skip `is_link_component` nodes).  These passes replace each text node
by a single string (`text_tag.replace_with(new_tag)`), so the traversal is a
plain structure-preserving map. -/
def mapTextN (f : String → String) (useV useL : Bool) (inV inL : Bool) : Node → Node
  | .text s => if (useV && inV) || (useL && inL) then .text s else .text (f s)
  | .elem n a cs =>
    .elem n a (mapTextL f useV useL (inV || VERBATIM_TAGS.contains n) (inL || n == LINK_TAG) cs)
def mapTextL (f : String → String) (useV useL : Bool) (inV inL : Bool) : List Node → List Node
  | [] => []
  | c :: cs => mapTextN f useV useL inV inL c :: mapTextL f useV useL inV inL cs
end

/-- From `prepress.py` lines 542-563: `replace_dashes`, the only pass that
skips both `keep_verbatim` and `is_link_component` text nodes. -/
def replace_dashes (doc : Doc) : Doc :=
  mapTextL replace_dashes_text true true false false doc

/-- The unordered-list family counted by `fix_lists`
(`parents.count("ul") + count("ul2") + ... + count("ul5")`). -/
def ulFamily : List String := ["ul", "ul2", "ul3", "ul4", "ul5"]

/-- The ordered-list family counted by `fix_lists`
(`parents.count("ol") + count("ol2") + count("ol3")`). -/
def olFamily : List String := ["ol", "ol2", "ol3"]

/-- What one child of a list element contributes to `new_children` in the
flattening loop of `fix_lists` (`prepress.py` lines 833-839): strings are
skipped; an `li` child is unwrapped to its contents followed by `"\n"`; any
other element child is *dropped* and contributes only the `"\n"`. -/
def flattenContribution (child : Node) : List Node :=
  match child with
  | .text _ => []
  | .elem n _ kids => if n == "li" then kids ++ [.text "\n"] else [.text "\n"]

mutual
/-- The flattening phase of `fix_lists` (`prepress.py` lines 832-841): every
`ul`/`ol`/`profquotes` element's children are rebuilt as
`new_children[:-1]`.  The snapshot loop processes outer lists before the
lists nested in their items; since the rebuild only reads the immediate
children's names and contents and moves subtrees without altering them, the
bottom-up recursion below produces the same tree. -/
def flattenListsN : Node → Node
  | .text s => .text s
  | .elem n a kids =>
    let kids2 := flattenListsL kids
    if ["ul", "ol", "profquotes"].contains n then
      .elem n a ((kids2.flatMap flattenContribution).dropLast)
    else .elem n a kids2
def flattenListsL : List Node → List Node
  | [] => []
  | c :: cs => flattenListsN c :: flattenListsL cs
end

mutual
/-- The list-renaming phases of `fix_lists` (`prepress.py` lines 843-862),
as one parametric top-down traversal: `base` is the tag searched for
(`ul` / `ol`), `family` the ancestor names counted, `maxD` the deepest
supported variant (5 / 3), `wrapName` the first-item wrapper
(`ul_first` / `ol_first`).  `anc` is `parents.count` over the family at
processing time; since the snapshot processes ancestors before descendants
and a renamed element keeps a family name (`base ++ level`, or `base` when
deeper than `maxD`), passing `anc + 1` below a `base`-named element
reproduces the counts Python sees.  At depth 1 Python wraps `contents[0]`
in the wrapper element (`IndexError`, modelled as `none`, when the list has
no children); the wrapper is not a family name, so the traversal through it
keeps the same count — the recursion inlines the wrapper around the
processed first child. -/
def renameListsN (base : String) (family : List String) (maxD : Nat) (wrapName : String)
    (anc : Nat) : Node → Option Node
  | .text s => some (.text s)
  | .elem n a kids =>
    if n == base then
      let level := anc + 1
      let n2 := if 1 < level ∧ level ≤ maxD then base ++ toString level else n
      if level = 1 then
        match kids with
        | [] => none
        | c :: cs =>
          match renameListsN base family maxD wrapName (anc + 1) c,
              renameListsL base family maxD wrapName (anc + 1) cs with
          | some c2, some cs2 => some (.elem n2 a (.elem wrapName [] [c2] :: cs2))
          | _, _ => none
      else
        (renameListsL base family maxD wrapName (anc + 1) kids).map (fun k2 => .elem n2 a k2)
    else
      (renameListsL base family maxD wrapName (if family.contains n then anc + 1 else anc)
        kids).map (fun k2 => .elem n a k2)
def renameListsL (base : String) (family : List String) (maxD : Nat) (wrapName : String)
    (anc : Nat) : List Node → Option (List Node)
  | [] => some []
  | c :: cs =>
    match renameListsN base family maxD wrapName anc c with
    | some c2 => (renameListsL base family maxD wrapName anc cs).map (fun l2 => c2 :: l2)
    | none => none
end

/-- The `ul` phase of `fix_lists` (maximum depth 5, wrapper `ul_first`). -/
def renameULsL (anc : Nat) : List Node → Option (List Node) :=
  renameListsL "ul" ulFamily 5 "ul_first" anc

/-- The `ol` phase of `fix_lists` (maximum depth 3, wrapper `ol_first`). -/
def renameOLsL (anc : Nat) : List Node → Option (List Node) :=
  renameListsL "ol" olFamily 3 "ol_first" anc

/-- From `prepress.py` lines 823-864: `fix_lists` — flatten the list items,
then rename nested `ul`s, then nested `ol`s. -/
def fix_lists (doc : Doc) : Option Doc :=
  match renameULsL 0 (flattenListsL doc) with
  | none => none
  | some d2 => renameOLsL 0 d2

/-- The tag name the (amended) depth rule assigns to a list at nesting depth
`level`: the depth variant for depths `2..maxD`, the plain base name
otherwise (depth 1, and — as the code actually behaves — any depth beyond
`maxD`). -/
def variantName (base : String) (maxD : Nat) (level : Nat) : String :=
  if 1 < level ∧ level ≤ maxD then base ++ toString level else base

/-- The depth rule's names for unordered lists (variants up to `ul5`). -/
def ulVariantName : Nat → String := variantName "ul" 5

/-- The depth rule's names for ordered lists (variants up to `ol3`). -/
def olVariantName : Nat → String := variantName "ol" 3

mutual
/-- Checks the claim's depth rule on an output tree: every element named in
`family` whose number of `family`-named proper ancestors is `k` must be
named `variant (k + 1)`. -/
def famNamesOKN (family : List String) (variant : Nat → String) (k : Nat) : Node → Bool
  | .text _ => true
  | .elem n _ kids =>
    if family.contains n then
      (n == variant (k + 1)) && famNamesOKL family variant (k + 1) kids
    else famNamesOKL family variant k kids
def famNamesOKL (family : List String) (variant : Nat → String) (k : Nat) : List Node → Bool
  | [] => true
  | c :: cs => famNamesOKN family variant k c && famNamesOKL family variant k cs
end

/-- The claim's depth rule for unordered lists. -/
def ulNamesOKL (k : Nat) : List Node → Bool :=
  famNamesOKL ulFamily ulVariantName k

/-- The claim's depth rule for ordered lists. -/
def olNamesOKL (k : Nat) : List Node → Bool :=
  famNamesOKL olFamily olVariantName k

mutual
/-- True when no element of the tree has a name satisfying `bad`. -/
def namesOKN (bad : String → Bool) : Node → Bool
  | .text _ => true
  | .elem n _ kids => !(bad n) && namesOKL bad kids
def namesOKL (bad : String → Bool) : List Node → Bool
  | [] => true
  | c :: cs => namesOKN bad c && namesOKL bad cs
end

/-- A pre-existing unordered depth-variant name (`ul2`..`ul5`): input trees
are assumed not to contain these (they are produced only by `fix_lists`). -/
def ulBadName (n : String) : Bool :=
  ulFamily.contains n && !(n == "ul")

/-- A pre-existing ordered depth-variant name (`ol2`, `ol3`). -/
def olBadName (n : String) : Bool :=
  olFamily.contains n && !(n == "ol")

mutual
/-- The names of all unordered-family elements of a tree in document order
(used to exhibit the renaming `fix_lists` performs on a concrete tree). -/
def ulFamilyNamesN : Node → List String
  | .text _ => []
  | .elem n _ kids =>
    (if ulFamily.contains n then [n] else []) ++ ulFamilyNamesL kids
def ulFamilyNamesL : List Node → List String
  | [] => []
  | c :: cs => ulFamilyNamesN c ++ ulFamilyNamesL cs
end

/-- First index `j` in `l` such that `l[j] = backslash` and `l[j+1]` is `)`
or `]` — where the non-greedy latex body search stops. -/
def latexClose : List Char → Option Nat
  | [] => none
  | [_] => none
  | c :: d :: rest =>
    if c = '\\' ∧ (d = ')' ∨ d = ']') then some 0
    else (latexClose (d :: rest)).map (fun j => j + 1)

/-- Fuelled scanner for `re.finditer(r"\\[([]([\s\S]+?)\\[)\]]", s)` from
`compile_latex`: an opener (backslash then `(` or `[`), a non-greedy
non-empty body, and the first closer (backslash then `)` or `]`).  Yields
`(match[0], match[1], display)` where `display = (match[0][1] == "[")`;
scanning resumes after each match. -/
def latexFinditer : Nat → List Char → List (String × String × Bool)
  | 0, _ => []
  | _ + 1, [] => []
  | fuel + 1, c :: cs =>
    match cs with
    | [] => []
    | d :: rest =>
      if c = '\\' ∧ (d = '(' ∨ d = '[') then
        match rest with
        | [] => latexFinditer fuel cs
        | b0 :: rest1 =>
          match latexClose rest1 with
          | some j =>
            let body := b0 :: rest1.take j
            let closer := rest1.getD (j + 1) ')'
            (String.mk (c :: d :: (body ++ ['\\', closer])), String.mk body, d == '[') ::
              latexFinditer fuel (rest1.drop (j + 2))
          | none => latexFinditer fuel cs
      else latexFinditer fuel cs

/-- `dict.get` on an association-list model of a Python dict (later
assignments shadow earlier ones). -/
def alistGet (m : List (String × Bool)) (k : String) : Option Bool :=
  (m.find? (fun p => p.1 == k)).map (fun p => p.2)

/-- The `<link href="file://...pdf">` tag `compile_latex` splices in. -/
def latexLinkTag (filename : String) : Node :=
  .elem "link" [("href", "file://" ++ filename ++ ".pdf")] []

/-- The memo state of `compile_latex`: `latex_valid_memo` (keyed by the
latex body `match[1]`) and `latex_compiled_memo` (keyed by `match[0]`). -/
abbrev LatexMemos := List (String × Bool) × List (String × Bool)

/-- The per-match loop of `compile_latex` (`prepress.py` lines 385-410) over
the matches of one text node.  `ok latex display` is the external compiler
collaborator (`compile_latex_str` succeeds or raises `CalledProcessError`);
`fname match0` stands for `article.get_pdf_location(sha1(match[0]))` (a pure
function of the match text and the article identity, abstracted here).
A match is skipped when its body is memoised invalid; a fresh match is
compiled, recording success in both memos and failure in the validity memo
(the failing match is skipped, `input(...)` then `continue`); a match whose
full text is already in the compiled memo is spliced without recompiling. -/
def latexOpsGo (ok : String → Bool → Bool) (fname : String → String) :
    List (String × String × Bool) → LatexMemos → LatexMemos × List (String × Node)
  | [], st => (st, [])
  | m :: ms, (valid, compiled) =>
    if alistGet valid m.2.1 == some false then
      latexOpsGo ok fname ms (valid, compiled)
    else
      if (alistGet compiled m.1).isNone then
        if ok m.2.1 m.2.2 then
          let r := latexOpsGo ok fname ms ((m.2.1, true) :: valid, (m.1, true) :: compiled)
          (r.1, (m.1, latexLinkTag (fname m.1)) :: r.2)
        else
          latexOpsGo ok fname ms ((m.2.1, false) :: valid, compiled)
      else
        let r := latexOpsGo ok fname ms (valid, compiled)
        (r.1, (m.1, latexLinkTag (fname m.1)) :: r.2)

/-- Per-text-node splice operations of `compile_latex`. -/
def latexOps (ok : String → Bool → Bool) (fname : String → String)
    (st : LatexMemos) (s : String) : LatexMemos × List (String × Node) :=
  latexOpsGo ok fname (latexFinditer (s.data.length + 1) s.data) st

/-- From `prepress.py` lines 369-411: `compile_latex`, with both memos
starting empty for each article. -/
def compile_latex (ok : String → Bool → Bool) (fname : String → String)
    (doc : Doc) : Option Doc :=
  (spliceChildren (latexOps ok fname) false ([], []) [] doc).map (fun p => p.1)

/-- ASCII `\w` under `re.ASCII`: letters, digits, underscore. -/
def isWChar (c : Char) : Bool :=
  c.isAlpha || c.isDigit || c = '_'

/-- Length of the maximal `\w` run at the head of the list. -/
def wRunLen : List Char → Nat
  | [] => 0
  | c :: cs => if isWChar c then wRunLen cs + 1 else 0

/-- Candidates (in Python's backtracking priority order) for `(?:https?:)?`:
`https:`, `http:`, then the empty alternative. -/
def imgurOptHttp (l : List Char) : List (List Char) :=
  (if ("https:".data).isPrefixOf l then [l.drop 6] else []) ++
    (if ("http:".data).isPrefixOf l then [l.drop 5] else []) ++ [l]

/-- Candidates for `(?:i\.)?`. -/
def imgurOptIDot (l : List Char) : List (List Char) :=
  (if ("i.".data).isPrefixOf l then [l.drop 2] else []) ++ [l]

/-- `imgur.com/` where the `.` of the pattern is an unescaped any-character:
`imgur`, any one character, `com/`. -/
def imgurDotCom (l : List Char) : List (List Char) :=
  if ("imgur".data).isPrefixOf l then
    match l.drop 5 with
    | [] => []
    | _ :: rest => if ("com/".data).isPrefixOf rest then [rest.drop 4] else []
  else []

/-- Candidates for `(?P<scheme>a/|gallery/)?`, alternation order then the
empty alternative. -/
def imgurScheme (l : List Char) : List (Option String × List Char) :=
  (if ("a/".data).isPrefixOf l then [(some "a/", l.drop 2)] else []) ++
    (if ("gallery/".data).isPrefixOf l then [(some "gallery/", l.drop 8)] else []) ++
    [(none, l)]

/-- Candidates for `(?P<hash>\w{5}(?:\w\w)*)`: odd lengths `5, 7, ...` up to
the `\w` run, longest (greediest) first. -/
def imgurHash (l : List Char) : List (String × List Char) :=
  let r := wRunLen l
  if r < 5 then []
  else
    (List.range ((r - 5) / 2 + 1)).reverse.map
      (fun k => (String.mk (l.take (5 + 2 * k)), l.drop (5 + 2 * k)))

/-- Candidates for `.?`: one any-character, then the empty alternative. -/
def imgurAnyOpt (l : List Char) : List (List Char) :=
  (match l with | [] => [] | _ :: rest => [rest]) ++ [l]

/-- Candidates for `(?P<ext>\.\w+)?`: a literal dot then a `\w` run (longest
first), then the empty alternative. -/
def imgurExt (l : List Char) : List (Option String × List Char) :=
  (match l with
    | c :: rest =>
      if c = '.' then
        let r := wRunLen rest
        (List.range r).reverse.map
          (fun k => (some (String.mk ('.' :: rest.take (k + 1))), rest.drop (k + 1)))
      else []
    | [] => []) ++ [(none, l)]

/-- All ways to match `imgur_url_regex` at the head of `l`, in Python's
backtracking priority order: `(scheme, hash, ext, remaining input)`.
`re.match` semantics take the head of this list. -/
def imgurURL (l : List Char) : List (Option String × String × Option String × List Char) :=
  (imgurOptHttp l).flatMap fun l1 =>
    (if ("//".data).isPrefixOf l1 then [l1.drop 2] else []).flatMap fun l2 =>
      (imgurOptIDot l2).flatMap fun l3 =>
        (imgurDotCom l3).flatMap fun l4 =>
          (imgurScheme l4).flatMap fun p4 =>
            (imgurHash p4.2).flatMap fun p5 =>
              (imgurAnyOpt p5.2).flatMap fun l6 =>
                (imgurExt l6).map fun p6 => (p4.1, p5.1, p6.1, p6.2)

/-- Fuelled scanner for `re.finditer` of
`\[embed\]{imgur_url_regex}\[/embed\]`: at each position, the literal
`[embed]`, then the first URL candidate whose remaining input starts with
`[/embed]`.  Yields `(match[0], scheme, hash, ext)`. -/
def imgurEmbedFinditer : Nat → List Char → List (String × Option String × String × Option String)
  | 0, _ => []
  | _ + 1, [] => []
  | fuel + 1, c :: cs =>
    if ("[embed]".data).isPrefixOf (c :: cs) then
      let inner := (c :: cs).drop 7
      match (imgurURL inner).find? (fun t => ("[/embed]".data).isPrefixOf t.2.2.2) with
      | some t =>
        let consumed := 7 + (inner.length - t.2.2.2.length) + 8
        (String.mk ((c :: cs).take consumed), t.1, t.2.1, t.2.2.1) ::
          imgurEmbedFinditer fuel ((c :: cs).drop consumed)
      | none => imgurEmbedFinditer fuel cs
    else imgurEmbedFinditer fuel cs

/-- Python `str.format` of `imgur_url_templ` with a group dictionary:
`None` formats as the string `"None"`. -/
def imgurUrlOf (h : String) (ex : Option String) : String :=
  "https://i.imgur.com/" ++ h ++ (match ex with | some e => e | none => "None")

/-- The `<img src="...">` tag `convert_imgur_embeds` splices in. -/
def imgTag (url : String) : Node :=
  .elem "img" [("src", url)] []

/-- The decision `convert_imgur_embeds` (`prepress.py` lines 260-289) makes
for one match.  `fetch url` abstracts the guarded block of the source: it
downloads the embed page and scrapes it; `none` means one of the *caught*
failures occurred (`HTTPError`, a non-200 response, or no `#image` element —
the pass prints, waits, and `continue`s); `some none` means the scrape
succeeded but the `img.post` element was missing (Python then crashes with
an uncaught `AttributeError`); `some (some src)` is the scraped image `src`.
The scraped `src` is re-matched against `imgur_url_regex`; a failed match is
the other uncaught crash (`.groupdict()` on `None`).
Result: `none` = pass crashes; `some none` = match skipped, text retained;
`some (some op)` = splice `op`. -/
def imgurMatchOp (fetch : String → Option (Option String))
    (m : String × Option String × String × Option String) :
    Option (Option (String × Node)) :=
  match m.2.2.2 with
  | some _ => some (some (m.1, imgTag (imgurUrlOf m.2.2.1 m.2.2.2)))
  | none =>
    match fetch ("https://imgur.com/" ++ (match m.2.1 with | some sc => sc | none => "") ++
        m.2.2.1 ++ "/embed?pub=true") with
    | none => some none
    | some none => none
    | some (some src) =>
      match (imgurURL src.data).head? with
      | none => none
      | some t => some (some (m.1, imgTag (imgurUrlOf t.2.1 t.2.2.1)))

/-- The splice operations of `convert_imgur_embeds` for one text node:
skipped matches contribute nothing; a crash propagates. -/
def imgurOpsList (fetch : String → Option (Option String)) :
    List (String × Option String × String × Option String) →
    Option (List (String × Node))
  | [] => some []
  | m :: ms =>
    match imgurMatchOp fetch m with
    | none => none
    | some none => imgurOpsList fetch ms
    | some (some op) => (imgurOpsList fetch ms).map (fun r => op :: r)

mutual
/-- `spliceElem` for passes whose per-node operations can fail
(`convert_imgur_embeds`). -/
def spliceElemO (opsF : σ → String → Option (σ × List (String × Node))) (inV : Bool) (st : σ) :
    Node → Option (Node × σ)
  | .text s => some (.text s, st)
  | .elem n a kids =>
    match spliceChildrenO opsF (inV || VERBATIM_TAGS.contains n) st [] kids with
    | some p => some (.elem n a p.1, p.2)
    | none => none
/-- `spliceChildren` for passes whose per-node operations can fail. -/
def spliceChildrenO (opsF : σ → String → Option (σ × List (String × Node))) (inV : Bool) (st : σ)
    (acc : List Node) : List Node → Option (List Node × σ)
  | [] => some (acc, st)
  | .text s :: rest =>
    if inV then spliceChildrenO opsF inV st (acc ++ [.text s]) rest
    else
      match opsF st s with
      | none => none
      | some p =>
        match applyOps p.2 (acc ++ [.text s]) acc.length rest with
        | some pref2 => spliceChildrenO opsF inV p.1 pref2 rest
        | none => none
  | .elem n a kids :: rest =>
    match spliceElemO opsF inV st (.elem n a kids) with
    | some q => spliceChildrenO opsF inV q.2 (acc ++ [q.1]) rest
    | none => none
end

/-- From `prepress.py` lines 234-291: `convert_imgur_embeds`. -/
def convert_imgur_embeds (fetch : String → Option (Option String)) (doc : Doc) : Option Doc :=
  (spliceChildrenO
    (fun (_ : Unit) s =>
      (imgurOpsList fetch (imgurEmbedFinditer (s.data.length + 1) s.data)).map
        (fun ops => ((), ops)))
    false () [] doc).map (fun p => p.1)

/-! #### The remaining pipeline passes (C1) -/

/-- From `prepress.py` lines 672-678: `normalize_newlines`.  Note the pass
has NO `keep_verbatim` guard: every text node, verbatim ones included, has
its CRLF sequences replaced. -/
def normalize_newlines (doc : Doc) : Doc :=
  mapTextL (fun s => strReplaceAll s "\r\n" "\n") false false false false doc

/-- From `prepress.py` lines 502-511: `replace_ellipses` (guarded by
`keep_verbatim`). -/
def replace_ellipses (doc : Doc) : Doc :=
  mapTextL (fun s => strReplaceAll s "..." "…") true false false false doc

/-- The closing-quote class `[’”]` of `punctuation_in_quotes`. -/
def pqQuote (c : Char) : Bool :=
  c = Char.ofNat 0x2019 || c = Char.ofNat 0x201D

/-- The punctuation class `[\.\!?;\:\,]` of `punctuation_in_quotes`. -/
def pqPunct (c : Char) : Bool :=
  c = '.' || c = '!' || c = '?' || c = ';' || c = ':' || c = ','

/-- `finditer` of `([’”])([\.\!?;\:\,])`: non-overlapping quote-punctuation
pairs, left to right. -/
def pqMatches : Nat → List Char → List (Char × Char)
  | 0, _ => []
  | _ + 1, [] => []
  | fuel + 1, c :: cs =>
    if pqQuote c then
      match cs with
      | d :: rest => if pqPunct d then (c, d) :: pqMatches fuel rest else pqMatches fuel cs
      | [] => []
    else pqMatches fuel cs

/-- From `prepress.py` lines 617-631: the per-text-node transformation of
`punctuation_in_quotes` — the matches are found in the original string, then
each `match[0]` has every occurrence replaced (`str.replace`) by the swapped
pair, cumulatively. -/
def punctuation_in_quotes_text (s : String) : String :=
  (pqMatches (s.data.length + 1) s.data).foldl
    (fun acc m => strReplaceAll acc (String.mk [m.1, m.2]) (String.mk [m.2, m.1])) s

/-- From `prepress.py` lines 617-631: `punctuation_in_quotes` (guarded by
`keep_verbatim`). -/
def punctuation_in_quotes (doc : Doc) : Doc :=
  mapTextL punctuation_in_quotes_text true false false false doc

/-- The punctuation class `[\.,!?;:]` of `footnote_after_punctuation`. -/
def fapPunct (c : Char) : Bool :=
  c = '.' || c = ',' || c = '!' || c = '?' || c = ';' || c = ':'

/-- `finditer` of `(\[\d*\])([\.,!?;:])`: a bracketed (possibly empty) digit
string directly followed by punctuation; returns `(match[1], match[2])`. -/
def fapMatches : Nat → List Char → List (String × Char)
  | 0, _ => []
  | _ + 1, [] => []
  | fuel + 1, c :: cs =>
    if c = '[' then
      let ds := cs.takeWhile Char.isDigit
      match cs.drop ds.length with
      | ']' :: d :: rest2 =>
        if fapPunct d then
          (String.mk ('[' :: (ds ++ [']'])), d) :: fapMatches fuel rest2
        else fapMatches fuel cs
      | _ => fapMatches fuel cs
    else fapMatches fuel cs

/-- From `prepress.py` lines 759-773: the per-text-node transformation of
`footnote_after_punctuation` (same cumulative `str.replace` scheme as
`punctuation_in_quotes`). -/
def footnote_after_punctuation_text (s : String) : String :=
  (fapMatches (s.data.length + 1) s.data).foldl
    (fun acc m => strReplaceAll acc (m.1 ++ String.mk [m.2]) (String.mk [m.2] ++ m.1)) s

/-- From `prepress.py` lines 759-773: `footnote_after_punctuation` (guarded
by `keep_verbatim`). -/
def footnote_after_punctuation (doc : Doc) : Doc :=
  mapTextL footnote_after_punctuation_text true false false false doc

/-- `finditer` of `([0-9]+)/10`: maximal digit runs directly followed by the
literal `/10`; returns `match[1]` (the digits). -/
def frMatches : Nat → List Char → List String
  | 0, _ => []
  | _ + 1, [] => []
  | fuel + 1, c :: cs =>
    if c.isDigit then
      let ds := (c :: cs).takeWhile Char.isDigit
      match (c :: cs).drop ds.length with
      | '/' :: '1' :: '0' :: rest => String.mk ds :: frMatches fuel rest
      | _ => frMatches fuel cs
    else frMatches fuel cs

/-- The HAIR SPACE character (U+200A) used around the fraction slash. -/
def hairspace : String := String.mk [Char.ofNat 0x200A]

/-- From `prepress.py` lines 681-698: the per-text-node transformation of
`hairspace_fractions_out_of_10` — each match of `([0-9]+)/10` has every
occurrence replaced by the digits and `/10` set off with hair spaces. -/
def hairspace_fractions_text (s : String) : String :=
  (frMatches (s.data.length + 1) s.data).foldl
    (fun acc m1 => strReplaceAll acc (m1 ++ "/10") (m1 ++ hairspace ++ "/" ++ hairspace ++ "10")) s

/-- From `prepress.py` lines 681-698: `hairspace_fractions_out_of_10`
(guarded by `keep_verbatim`). -/
def hairspace_fractions_out_of_10 (doc : Doc) : Doc :=
  mapTextL hairspace_fractions_text true false false false doc

/-- `string.punctuation` plus the interrobang (`remove_extraneous_spaces`). -/
def punctuationChars : List Char :=
  ['!', dquoteChar, '#', '$', '%', '&', squoteChar, '(', ')', '*', '+', ',',
   '-', '.', '/', ':', ';', '<', '=', '>', '?', '@', '[', '\\', ']', '^', '_',
   Char.ofNat 96, Char.ofNat 123, '|', Char.ofNat 125, '~', Char.ofNat 0x203D]

/-- The `single_spaced_chars` class of `remove_extraneous_spaces`:
`A-Za-z0-9`, the accent ranges `À-Ö`, `Ø-ö`, `ø-ÿ`, and the punctuation. -/
def singleSpacedChar (c : Char) : Bool :=
  ('A' ≤ c && c ≤ 'Z') || ('a' ≤ c && c ≤ 'z') || ('0' ≤ c && c ≤ '9') ||
  (Char.ofNat 0xC0 ≤ c && c ≤ Char.ofNat 0xD6) ||
  (Char.ofNat 0xD8 ≤ c && c ≤ Char.ofNat 0xF6) ||
  (Char.ofNat 0xF8 ≤ c && c ≤ Char.ofNat 0xFF) ||
  punctuationChars.contains c

/-- Number of leading NBSP-space pairs. -/
def nbspPairRun : List Char → Nat
  | c1 :: c2 :: rest =>
    if c1 = Char.ofNat 0xA0 ∧ c2 = ' ' then nbspPairRun rest + 1 else 0
  | _ => 0

/-- `re.sub(r"(?<=[...])(  )+", " ", s)`: left-to-right non-overlapping
scan, `prev` being the previous character of the original string (the
lookbehind). -/
def nbspScan : Nat → Option Char → List Char → List Char
  | 0, _, rest => rest
  | _ + 1, _, [] => []
  | fuel + 1, prev, c :: cs =>
    let prevOk := match prev with | some p => singleSpacedChar p | none => false
    let k := nbspPairRun (c :: cs)
    if prevOk = true ∧ 0 < k then
      ' ' :: nbspScan fuel (some ' ') ((c :: cs).drop (2 * k))
    else c :: nbspScan fuel (some c) cs

/-- `re.sub(r"(?<=[...]) +", " ", s)`. -/
def spScan : Nat → Option Char → List Char → List Char
  | 0, _, rest => rest
  | _ + 1, _, [] => []
  | fuel + 1, prev, c :: cs =>
    let prevOk := match prev with | some p => singleSpacedChar p | none => false
    if prevOk = true ∧ c = ' ' then
      ' ' :: spScan fuel (some ' ') (cs.dropWhile (fun d => d == ' '))
    else c :: spScan fuel (some c) cs

/-- From `prepress.py` lines 634-669: the per-text-node transformation of
`remove_extraneous_spaces` — the NBSP-space-pair substitution followed by the
multi-space substitution. -/
def remove_extraneous_spaces_text (s : String) : String :=
  let t1 := nbspScan (s.data.length + 1) none s.data
  String.mk (spScan (t1.length + 1) none t1)

/-- From `prepress.py` lines 634-669: `remove_extraneous_spaces` (guarded by
`keep_verbatim`). -/
def remove_extraneous_spaces (doc : Doc) : Doc :=
  mapTextL remove_extraneous_spaces_text true false false false doc

/-- `re.split(r"(?<!\n)\n(?!\n)", s)`: split at single newlines (those not
adjacent to another newline); `prev` is the preceding original character. -/
def snlSplit : Nat → Option Char → List Char → List (List Char)
  | 0, _, rest => [rest]
  | _ + 1, _, [] => [[]]
  | fuel + 1, prev, c :: cs =>
    if c = '\n' ∧ prev ≠ some '\n' ∧ cs.head? ≠ some '\n' then
      [] :: snlSplit fuel (some c) cs
    else
      match snlSplit fuel (some c) cs with
      | [] => [[c]]
      | s :: ss => (c :: s) :: ss

/-- From `prepress.py` lines 701-731: the new string `replace_newlines`
computes for one non-verbatim text node, given whether the node has a
previous / next element sibling.  `none` models the `IndexError` raised by
`new_tag_builder[-1]` when the builder has emptied (text `""` with a
previous element sibling). -/
def rnText (hasPrev hasNext : Bool) (s : String) : Option String :=
  let b0 := snlSplit (s.data.length + 1) none s.data
  let dropFirst := b0.head? == some [] && hasPrev
  let b1 := if dropFirst then b0.tail else b0
  match b1.getLast? with
  | none => none
  | some lastSeg =>
    let dropLast := lastSeg.isEmpty && hasNext
    let b2 := if dropLast then b1.dropLast else b1
    let pre := if dropFirst then "\n" else ""
    let suf := if dropLast then "\n" else ""
    some (pre ++ String.intercalate LINE_SEPARATOR (b2.map String.mk) ++ suf)

/-- Whether a node is a Tag (used for `find_previous_sibling` /
`find_next_sibling`, which match only Tags). -/
def isElemNode : Node → Bool
  | .text _ => false
  | .elem _ _ _ => true

mutual
/-- From `prepress.py` lines 701-731: `replace_newlines`.  Verbatim text
nodes are left untouched; every other text node is rewritten by `rnText`
with its element-sibling context. -/
def rnN (inV : Bool) (hasPrev hasNext : Bool) : Node → Option Node
  | .text s =>
    if inV then some (.text s)
    else (rnText hasPrev hasNext s).map (fun s2 => Node.text s2)
  | .elem n a kids =>
    (rnL (inV || VERBATIM_TAGS.contains n) false kids).map (fun ks => Node.elem n a ks)
def rnL (inV : Bool) (prevElem : Bool) : List Node → Option (List Node)
  | [] => some []
  | c :: cs =>
    match rnN inV prevElem (cs.any isElemNode) c with
    | some c2 => (rnL inV (prevElem || isElemNode c) cs).map (fun cs2 => c2 :: cs2)
    | none => none
end

/-- From `prepress.py` lines 701-731: `replace_newlines` at the root. -/
def replace_newlines (doc : Doc) : Option Doc :=
  rnL false false doc

/-- The backtick character. -/
def backtickChar : Char := Char.ofNat 96

/-- `finditer` of the inline-code pattern (backtick, lazy non-empty body,
backtick): an opening backtick, then the first closing backtick at least two
characters later; returns `(match[0], match[1])`. -/
def codeFinditer : Nat → List Char → List (String × String)
  | 0, _ => []
  | _ + 1, [] => []
  | fuel + 1, c :: cs =>
    if c = backtickChar then
      match cs with
      | [] => []
      | d :: rest =>
        match rest.findIdx? (fun e => e == backtickChar) with
        | some j =>
          (String.mk (c :: d :: (rest.take j ++ [backtickChar])),
            String.mk (d :: rest.take j)) :: codeFinditer fuel (rest.drop (j + 1))
        | none => codeFinditer fuel cs
    else codeFinditer fuel cs

/-- From `prepress.py` lines 414-430: `replace_inline_code` — each match is
replaced by a `code` tag holding the body (`code_tag.string = code`). -/
def replace_inline_code (doc : Doc) : Option Doc :=
  (spliceChildren
    (fun (_ : Unit) s =>
      ((), (codeFinditer (s.data.length + 1) s.data).map
        (fun m => (m.1, Node.elem "code" [] [Node.text m.2]))))
    false () [] doc).map (fun p => p.1)

/-- `valid_url_chars` of `replace_links`. -/
def urlChar (c : Char) : Bool :=
  ('A' ≤ c && c ≤ 'Z') || ('a' ≤ c && c ≤ 'z') || ('0' ≤ c && c ≤ '9') ||
  ['-', '.', '_', '~', ':', '/', '?', '#', '[', ']', '@', '!', '$',
    '&', squoteChar, '(', ')', '*', '+', ',', ';', '%', '='].contains c

/-- `valid_url_chars_no_punctuation` of `replace_links`. -/
def urlCharNP (c : Char) : Bool :=
  ('A' ≤ c && c ≤ 'Z') || ('a' ≤ c && c ≤ 'z') || ('0' ≤ c && c ≤ '9') ||
  ['-', '_', '~', '/', '#', '[', ']', '@', '$', '&', squoteChar, '(', ')',
    '*', '+', '%', '='].contains c

/-- The TLD alternation `(\.com|\.ca|\.org\.gov)` in source order (note the
spec-visible typo: `.org.gov`, one alternative, not two). -/
def linkTLDs : List (List Char) := [".com".data, ".ca".data, ".org.gov".data]

/-- Backtracking split of the greedy `prefix+` against the TLD alternation
inside the maximal URL-character run: tries the longest prefix first, the
alternatives in source order. -/
def linkTldAt (run : List Char) : Nat → Option (Nat × List Char)
  | 0 => none
  | l + 1 =>
    match linkTLDs.find? (fun t => t.isPrefixOf (run.drop (l + 1))) with
    | some t => some (l + 1, t)
    | none => linkTldAt run l

/-- Index of the last character of `l` satisfying `p`. -/
def lastIdxSat (p : Char → Bool) (l : List Char) : Option Nat :=
  match l.reverse.findIdx? p with
  | none => none
  | some j => some (l.length - 1 - j)

/-- `finditer` of the inline link regex `(prefix(\.com|\.ca|\.org\.gov)
(suffix)?)`: at the earliest position whose maximal URL-character run
contains a TLD after at least one character, the match takes the longest
possible prefix, the TLD, and the greedy optional suffix (URL characters up
to and including the last non-punctuation URL character after the TLD). -/
def linkFinditer : Nat → List Char → List String
  | 0, _ => []
  | _ + 1, [] => []
  | fuel + 1, c :: cs =>
    if urlChar c then
      let run := (c :: cs).takeWhile urlChar
      match linkTldAt run run.length with
      | some q =>
        let rest1 := run.drop (q.1 + q.2.length)
        let suffLen := match lastIdxSat urlCharNP rest1 with
          | some k => k + 1
          | none => 0
        String.mk (run.take (q.1 + q.2.length + suffLen)) ::
          linkFinditer fuel ((c :: cs).drop (q.1 + q.2.length + suffLen))
      | none => linkFinditer fuel cs
    else linkFinditer fuel cs

/-- From `prepress.py` lines 515-539: `replace_links` — each match is
replaced by a `<link href=match>` tag holding the match text. -/
def replace_links (doc : Doc) : Option Doc :=
  (spliceChildren
    (fun (_ : Unit) s =>
      ((), (linkFinditer (s.data.length + 1) s.data).map
        (fun m => (m, Node.elem "link" [("href", m)] [Node.text m]))))
    false () [] doc).map (fun p => p.1)

mutual
/-- One renaming stage of the manual-highlighting pass: inside verbatim
regions, every element whose name is in `targets` is renamed to `to2`. -/
def cmshStageN (targets : List String) (to2 : String) (inV : Bool) : Node → Node
  | .text s => .text s
  | .elem n a kids =>
    .elem (if inV && targets.contains n then to2 else n) a
      (cmshStageL targets to2 (inV || VERBATIM_TAGS.contains n) kids)
def cmshStageL (targets : List String) (to2 : String) (inV : Bool) : List Node → List Node
  | [] => []
  | c :: cs => cmshStageN targets to2 inV c :: cmshStageL targets to2 inV cs
end

/-- From `prepress.py` lines 433-447: `convert_manual_syntax_highlighting`
(name shortened here).  The three highlight tag names come from the missing
`plugins` module and are taken as parameters `nB`, `nI`, `nU`.  The source
runs the bold, italic and underline renames in order over the descendants of
each verbatim element of one snapshot; for disjoint verbatim regions that
equals the three global stages modelled here. -/
def convert_manual_highlighting (nB nI nU : String) (doc : Doc) : Doc :=
  cmshStageL ["u"] nU false
    (cmshStageL ["em", "i"] nI false
      (cmshStageL ["strong", "b"] nB false doc))

mutual
/-- First stage of `convert_emphasis_2`: every `i`/`em` element with a
`b`/`strong` ancestor becomes `em2`. -/
def em2AN (underB : Bool) : Node → Node
  | .text s => .text s
  | .elem n a kids =>
    .elem (if underB && (n == "i" || n == "em") then "em2" else n) a
      (em2AL (underB || (n == "b" || n == "strong")) kids)
def em2AL (underB : Bool) : List Node → List Node
  | [] => []
  | c :: cs => em2AN underB c :: em2AL underB cs
end

mutual
/-- Second stage of `convert_emphasis_2`: every `b`/`strong` element with an
`i`/`em` ancestor (in the stage-one output) becomes `em2`. -/
def em2BN (underI : Bool) : Node → Node
  | .text s => .text s
  | .elem n a kids =>
    .elem (if underI && (n == "b" || n == "strong") then "em2" else n) a
      (em2BL (underI || (n == "i" || n == "em")) kids)
def em2BL (underI : Bool) : List Node → List Node
  | [] => []
  | c :: cs => em2BN underI c :: em2BL underI cs
end

/-- From `prepress.py` lines 801-811: `convert_emphasis_2`. -/
def convert_emphasis_2 (doc : Doc) : Doc :=
  em2BL false (em2AL false doc)

mutual
/-- Renames every `ul` element to `profquotes`. -/
def pqRenameN : Node → Node
  | .text s => .text s
  | .elem n a kids => .elem (if n == "ul" then "profquotes" else n) a (pqRenameL kids)
def pqRenameL : List Node → List Node
  | [] => []
  | c :: cs => pqRenameN c :: pqRenameL cs
end

/-- From `prepress.py` lines 814-820: `convert_profquotes` — the rename runs
only for articles titled exactly `profQUOTES`. -/
def convert_profquotes (title : String) (doc : Doc) : Doc :=
  if title == "profQUOTES" then pqRenameL doc else doc

/-- Attribute lookup (`tag.attrs[k]`) on an association-list model. -/
def attrsGet (a : List (String × String)) (k : String) : Option String :=
  (a.find? (fun p => p.1 == k)).map (fun p => p.2)

/-- Python dict assignment `attrs[k] = v` on an association-list model. -/
def setAttr : List (String × String) → String → String → List (String × String)
  | [], k, v => [(k, v)]
  | p :: ps, k, v => if p.1 == k then (k, v) :: ps else p :: setAttr ps k v

mutual
/-- From `prepress.py` lines 307-339: `download_images`.  The download
collaborator is the parameter `ok` (HTTP and filesystem errors are caught
and the tag is skipped); `loc idx url` stands for
`article.get_image_location(basename, index)`.  Every `img` element, in
document order, consumes one index; an `img` without a `src` attribute is
skipped; on success the element is renamed to `link` and given an `href`
pointing at the local file. -/
def diN (ok : String → Bool) (loc : Nat → String → String) :
    Nat → Node → Node × Nat
  | idx, .text s => (.text s, idx)
  | idx, .elem n a kids =>
    if n == "img" then
      let p :=
        match attrsGet a "src" with
        | some url =>
          if ok url then ("link", setAttr a "href" ("file://" ++ loc idx url)) else (n, a)
        | none => (n, a)
      let r := diL ok loc (idx + 1) kids
      (.elem p.1 p.2 r.1, r.2)
    else
      let r := diL ok loc idx kids
      (.elem n a r.1, r.2)
def diL (ok : String → Bool) (loc : Nat → String → String) :
    Nat → List Node → List Node × Nat
  | idx, [] => ([], idx)
  | idx, c :: cs =>
    let r := diN ok loc idx c
    let r2 := diL ok loc r.2 cs
    (r.1 :: r2.1, r2.2)
end

/-- From `prepress.py` lines 307-339: `download_images` at the root. -/
def download_images (ok : String → Bool) (loc : Nat → String → String) (doc : Doc) : Doc :=
  (diL ok loc 0 doc).1

/-- Whether a caption child is collected into `images` (`a`/`img` Tags). -/
def isCaptionImage : Node → Bool
  | .text _ => false
  | .elem n _ _ => n == "a" || n == "img"

/-- Strips the single leading space Wordpress adds to the caption text;
`none` models the `IndexError` of `non_images[0][0]` on an empty first
string child. -/
def stripCaptionSpace : List Node → Option (List Node)
  | .text t :: rest =>
    match t.data with
    | [] => none
    | c :: cs2 =>
      if c = ' ' then some (.text (String.mk cs2) :: rest) else some (.text t :: rest)
  | l => some l

/-- From `prepress.py` lines 776-798: `process_captions`, fuelled for the
nested-caption recursion (every recursive call is on a strictly smaller
`nlsize`, so `nlsize doc + 1` fuel is always enough).  Each `caption`
element has its children split into images (`a`/`img` Tags, order kept) and
the rest; the leading space of the first remaining string child is stripped;
the caption is replaced by the images followed by a `figcaption` holding the
rest.  Nested captions stay in the `find_all` snapshot and keep being
processed inside the replacement. -/
def pcL : Nat → List Node → Option (List Node)
  | 0, l => some l
  | _ + 1, [] => some []
  | fuel + 1, .text s :: cs => (pcL fuel cs).map (fun r => Node.text s :: r)
  | fuel + 1, .elem n a kids :: cs =>
    if n == "caption" then
      let images := kids.filter isCaptionImage
      let nonImages := kids.filter (fun c => !(isCaptionImage c))
      match stripCaptionSpace nonImages with
      | none => none
      | some ni2 =>
        match pcL fuel images, pcL fuel ni2, pcL fuel cs with
        | some im2, some ni3, some cs2 =>
          some (im2 ++ Node.elem "figcaption" [] ni3 :: cs2)
        | _, _, _ => none
    else
      match pcL fuel kids, pcL fuel cs with
      | some kids2, some cs2 => some (Node.elem n a kids2 :: cs2)
      | _, _ => none

/-- From `prepress.py` lines 776-798: `process_captions` at the root. -/
def process_captions (doc : Doc) : Option Doc :=
  pcL (nlsize doc + 1) doc

/-! ### Theorems -/

mutual
theorem nbeq_iff : ∀ a b : Node, nbeq a b = true ↔ a = b
  | .text _, .text _ => by simp [nbeq]
  | .text _, .elem _ _ _ => by simp [nbeq]
  | .elem _ _ _, .text _ => by simp [nbeq]
  | .elem n a cs, .elem m b ds => by
    simp [nbeq, nlbeq_iff cs ds, Bool.and_eq_true, beq_iff_eq, and_assoc]
theorem nlbeq_iff : ∀ l1 l2 : List Node, nlbeq l1 l2 = true ↔ l1 = l2
  | [], [] => by simp [nlbeq]
  | [], _ :: _ => by simp [nlbeq]
  | _ :: _, [] => by simp [nlbeq]
  | c :: cs, d :: ds => by simp [nlbeq, nbeq_iff c d, nlbeq_iff cs ds]
end

instance : DecidableEq Node := fun a b => decidable_of_iff _ (nbeq_iff a b)

theorem splitAtSub_append (sub : List Char) :
    ∀ t b e, splitAtSub sub t = some (b, e) → b ++ sub ++ e = t := by
  intro t
  induction t with
  | nil =>
    intro b e h
    simp only [splitAtSub, List.isEmpty_iff] at h
    by_cases hs : sub = []
    · simp [hs] at h; simp [h.1, h.2, hs]
    · simp [hs] at h
  | cons c t2 ih =>
    intro b e h
    simp only [splitAtSub] at h
    by_cases hp : sub.isPrefixOf (c :: t2)
    · simp only [hp, if_true, Option.some.injEq, Prod.mk.injEq] at h
      obtain ⟨hb, he⟩ := h
      have hpre : sub <+: (c :: t2) := by
        exact (List.isPrefixOf_iff_prefix).mp hp
      have := List.prefix_iff_eq_append.mp hpre
      subst hb he
      simpa using this
    · rw [if_neg hp] at h
      cases hsp : splitAtSub sub t2 with
      | none => rw [hsp] at h; simp at h
      | some p =>
        obtain ⟨b2, e2⟩ := p
        rw [hsp] at h
        simp only [Option.map_some', Option.some.injEq, Prod.mk.injEq] at h
        obtain ⟨hb2, he2⟩ := h
        have hconc := ih b2 e2 hsp
        subst hb2
        subst he2
        simp only [List.cons_append]
        rw [hconc]

theorem mk_data (s : String) : String.mk s.data = s := rfl

theorem mk_append (a b : List Char) : String.mk a ++ String.mk b = String.mk (a ++ b) := rfl

theorem strPartition_append (t sep b e : String) (h : strPartition t sep = some (b, e))
    (hocc : (splitAtSub sep.data t.data).isSome) : b ++ sep ++ e = t := by
  obtain ⟨⟨b2, e2⟩, hsp⟩ := Option.isSome_iff_exists.mp hocc
  unfold strPartition at h
  by_cases hs : sep.data.isEmpty
  · simp [hs] at h
  · rw [if_neg (by simpa using hs), hsp] at h
    simp only [Option.some.injEq, Prod.mk.injEq] at h
    obtain ⟨hb, he⟩ := h
    have hap := splitAtSub_append sep.data t.data b2 e2 hsp
    subst hb
    subst he
    show String.mk b2 ++ String.mk sep.data ++ String.mk e2 = t
    rw [mk_append, mk_append, hap, mk_data]

/-- Core structural lemma for the splicer: when the value-equality index
agrees with the true index `i` (no earlier sibling text node has the same
string), the splice replaces slot `i` by `[begin, repl, end]` in place. -/
theorem set_insertIdx_splice (cs : List Node) (i : Nat) (x y z : Node)
    (hi : i < cs.length) :
    ((cs.set i x).insertIdx (i + 1) y).insertIdx (i + 2) z =
      cs.take i ++ [x, y, z] ++ cs.drop (i + 1) := by
  induction cs generalizing i with
  | nil => simp at hi
  | cons c cs ih =>
    cases i with
    | zero =>
      simp [List.set, List.insertIdx_succ_cons, List.insertIdx_zero]
    | succ j =>
      have hj : j < cs.length := by simpa using hi
      simp only [List.set, List.insertIdx_succ_cons, List.take, List.drop,
        List.cons_append]
      rw [show j + 1 + 1 = j + 2 from rfl]
      rw [ih j hj]

theorem rtwt_splice_eq (subText : String) (repl : Node) (cs : List Node) (i : Nat) (t : String)
    (hget : cs.get? i = some (.text t))
    (hfirst : firstEqIdx cs t = some i)
    (hne : subText ≠ "")
    (hocc : (splitAtSub subText.data t.data).isSome) :
    ∃ b e, strPartition t subText = some (b, e) ∧ b ++ subText ++ e = t ∧
      replace_text_with_tag subText repl cs i =
        some (cs.take i ++ [.text b, repl, .text e] ++ cs.drop (i + 1), .text e) := by
  obtain ⟨⟨b2, e2⟩, hsp⟩ := Option.isSome_iff_exists.mp hocc
  have hdata : subText.data.isEmpty = false := by
    cases hsub : subText.data with
    | nil =>
      exact absurd (by cases subText with | mk d => cases hsub; rfl) hne
    | cons c rest => rfl
  have hpart : strPartition t subText = some (String.mk b2, String.mk e2) := by
    unfold strPartition
    rw [hdata, hsp]
    simp
  obtain ⟨hi, -⟩ := List.get?_eq_some.mp hget
  refine ⟨String.mk b2, String.mk e2, hpart, ?_, ?_⟩
  · exact strPartition_append t subText _ _ hpart hocc
  · simp only [replace_text_with_tag, hget, hfirst, hpart]
    rw [set_insertIdx_splice cs i _ _ _ hi]

/-- C2 (amended): when no earlier sibling text node has the same string value
as the text node being spliced (so Python's value-equality `list.index` finds
the node itself), `replace_text_with_tag` replaces the node at its original
position `i` by the prefix text node, the replacement tag, and the suffix
text node; prefix ++ sub_text ++ suffix equals the original content; all
other siblings keep their relative order (the `take`/`drop` parts are
untouched); and the suffix node is returned.  The original claim, without
that proviso, is refuted by `C2_counterexample`. -/
theorem C2_replace_text_with_tag_splices_in_place (subText : String) (repl : Node)
    (cs : List Node) (i : Nat) (t b e : String)
    (hget : cs.get? i = some (.text t))
    (hfirst : firstEqIdx cs t = some i)
    (hne : subText ≠ "")
    (hocc : (splitAtSub subText.data t.data).isSome)
    (hpart : strPartition t subText = some (b, e)) :
    b ++ subText ++ e = t ∧
      replace_text_with_tag subText repl cs i =
        some (cs.take i ++ [.text b, repl, .text e] ++ cs.drop (i + 1), .text e) := by
  obtain ⟨b2, e2, hpart2, hcat, heq⟩ := rtwt_splice_eq subText repl cs i t hget hfirst hne hocc
  rw [hpart2] at hpart
  simp only [Option.some.injEq, Prod.mk.injEq] at hpart
  obtain ⟨hb, he⟩ := hpart
  subst hb
  subst he
  exact ⟨hcat, heq⟩

/-- Witness for `C2_replace_text_with_tag_splices_in_place` at a concrete
splice: children `[<p></p>, "a!b"]`, replacing `"!"` in the second child. -/
theorem C2_witness :
    "a" ++ "!" ++ "b" = "a!b" ∧
      replace_text_with_tag "!" (.elem "sup" [] []) [.elem "p" [] [], .text "a!b"] 1 =
        some (([.elem "p" [] [], .text "a!b"] : List Node).take 1 ++
          [.text "a", .elem "sup" [] [], .text "b"] ++
          ([.elem "p" [] [], .text "a!b"] : List Node).drop 2, .text "b") :=
  C2_replace_text_with_tag_splices_in_place "!" (.elem "sup" [] [])
    [.elem "p" [] [], .text "a!b"] 1 "a!b" "a" "b" (by rfl) (by rfl) (by decide) (by rfl) (by rfl)

/-- C5 (amended): `replace_text_with_tag` performs no emptiness check: the
prefix and suffix text nodes are inserted even when empty.  Under the same
hypotheses as C2, the output holds the prefix text node at position `i` and
the suffix text node at position `i + 2`; in particular, when the match
starts at the beginning of the content (`b = ""`) or ends at its end
(`e = ""`), an *empty* text node is inserted there.  The original claim
(no empty text node is ever inserted) is refuted by `C5_counterexample`. -/
theorem C5_empty_text_nodes_are_inserted (subText : String) (repl : Node)
    (cs : List Node) (i : Nat) (t b e : String) (out : List Node) (endN : Node)
    (hget : cs.get? i = some (.text t))
    (hfirst : firstEqIdx cs t = some i)
    (hne : subText ≠ "")
    (hocc : (splitAtSub subText.data t.data).isSome)
    (hpart : strPartition t subText = some (b, e))
    (hrun : replace_text_with_tag subText repl cs i = some (out, endN)) :
    out.get? i = some (.text b) ∧ out.get? (i + 2) = some (.text e) ∧ endN = .text e := by
  obtain ⟨b2, e2, hpart2, hcat, heq⟩ := rtwt_splice_eq subText repl cs i t hget hfirst hne hocc
  rw [hpart2] at hpart
  simp only [Option.some.injEq, Prod.mk.injEq] at hpart
  obtain ⟨hb, he⟩ := hpart
  subst hb
  subst he
  rw [heq] at hrun
  simp only [Option.some.injEq, Prod.mk.injEq] at hrun
  obtain ⟨hout, hend⟩ := hrun
  subst hout
  obtain ⟨hi, -⟩ := List.get?_eq_some.mp hget
  have hlen : (cs.take i).length = i := by
    simp [List.length_take, Nat.min_eq_left (Nat.le_of_lt hi)]
  refine ⟨?_, ?_, hend.symm⟩
  · rw [List.append_assoc, List.get?_append_right (by omega), hlen]
    simp
  · rw [List.append_assoc, List.get?_append_right (by omega), hlen]
    simp

/-- Witness for `C5_empty_text_nodes_are_inserted`: splicing the whole
content `"ab"` of a lone text node leaves an empty prefix text node at
position 0 and an empty suffix text node at position 2. -/
theorem C5_witness :
    ([Node.text "", .elem "sup" [] [], .text ""] : List Node).get? 0 = some (.text "") ∧
    ([Node.text "", .elem "sup" [] [], .text ""] : List Node).get? 2 = some (.text "") ∧
    (Node.text "" : Node) = .text "" :=
  C5_empty_text_nodes_are_inserted "ab" (.elem "sup" [] []) [.text "ab"] 0 "ab" "" ""
    [.text "", .elem "sup" [] [], .text ""] (.text "")
    (by rfl) (by rfl) (by decide) (by rfl) (by rfl) (by rfl)

/-- C5 counterexample: splicing `sub_text = "ab"` out of the text node
`"ab"` (match at both the start and the end of the content) inserts two
*empty* text nodes, refuting the claim that no empty text node is inserted
when the prefix or suffix is empty. -/
theorem C5_counterexample :
    replace_text_with_tag "ab" (.elem "sup" [] []) [.text "ab"] 0 =
      some ([.text "", .elem "sup" [] [], .text ""], .text "") ∧
    Node.text "" ∈ ([.text "", .elem "sup" [] [], .text ""] : List Node) := by
  constructor
  · rfl
  · decide

/-- C3 counterexample: for the article whose non-protected text contains
exactly the footnote markers `[1]`, `[]`, `[]`, `[5]`, `[]` in order,
`add_footnotes` does *not* display `1, 2, 3, 5, 6`: after the
out-of-sequence `[5]` the counter is still 4, so the final empty bracket
displays 4 (see `C3_footnote_numbers`). -/
theorem C3_counterexample :
    (add_footnotes [.text "a[1]b[]c[]d[5]e[]f"]).map supTextsL ≠
      some ["1", "2", "3", "5", "6"] := by
  decide

/-- C3 (amended): on an article whose non-protected text contains exactly the
footnote markers `[1]`, `[]`, `[]`, `[5]`, `[]` in document order,
`add_footnotes` produces sup elements displaying `1, 2, 3, 5, 4`: the
explicit `5` leaves the counter at 4 (it neither matches the expected value
nor is empty), so the following empty bracket displays 4. -/
theorem C3_footnote_numbers :
    (add_footnotes [.text "a[1]b[]c[]d[5]e[]f"]).map supTextsL =
      some ["1", "2", "3", "5", "4"] := by
  rfl

theorem supTextsL_append (l1 l2 : List Node) :
    supTextsL (l1 ++ l2) = supTextsL l1 ++ supTextsL l2 := by
  induction l1 with
  | nil => simp [supTextsL]
  | cons c cs ih => simp [supTextsL, ih]

theorem supTextsL_set_text : ∀ (l : List Node) (i : Nat) (b t : String),
    l.get? i = some (.text t) → supTextsL (l.set i (.text b)) = supTextsL l := by
  intro l
  induction l with
  | nil => intro i b t h; simp at h
  | cons c cs ih =>
    intro i b t h
    cases i with
    | zero =>
      simp only [List.get?] at h
      cases h
      simp [List.set, supTextsL, supTexts]
    | succ j =>
      simp only [List.get?] at h
      simp [List.set, supTextsL, ih j b t h]

theorem supTextsL_insertIdx : ∀ (n : Nat) (l : List Node) (x : Node), n ≤ l.length →
    List.Perm (supTextsL (l.insertIdx n x)) (supTexts x ++ supTextsL l) := by
  intro n
  induction n with
  | zero =>
    intro l x _
    simp [List.insertIdx_zero, supTextsL]
  | succ m ih =>
    intro l x h
    cases l with
    | nil => simp at h
    | cons c cs =>
      rw [List.insertIdx_succ_cons]
      have hm : m ≤ cs.length := by simpa using h
      have h1 := ih cs x hm
      have e1 : supTextsL (c :: cs.insertIdx m x)
          = supTexts c ++ supTextsL (cs.insertIdx m x) := by simp [supTextsL]
      have e2 : supTextsL (c :: cs) = supTexts c ++ supTextsL cs := by simp [supTextsL]
      rw [e1, e2]
      have h2 : List.Perm (supTexts c ++ supTextsL (cs.insertIdx m x))
          (supTexts c ++ (supTexts x ++ supTextsL cs)) := h1.append_left _
      refine h2.trans ?_
      rw [← List.append_assoc, ← List.append_assoc]
      exact List.perm_append_comm.append_right _

theorem perm_of_coe {α : Type} {l1 l2 : List α} (h : (↑l1 : Multiset α) = ↑l2) :
    List.Perm l1 l2 :=
  Multiset.coe_eq_coe.mp h

theorem coe_of_perm {α : Type} {l1 l2 : List α} (h : List.Perm l1 l2) :
    (↑l1 : Multiset α) = ↑l2 :=
  Multiset.coe_eq_coe.mpr h

theorem applyOps_supPerm : ∀ (ops : List (String × Node)) (pref : List Node) (i : Nat)
    (rest out : List Node), applyOps ops pref i rest = some out →
    List.Perm (supTextsL out)
      (supTextsL pref ++ (ops.map (fun op => op.2)).flatMap supTexts) := by
  intro ops
  induction ops with
  | nil =>
    intro pref i rest out h
    simp only [applyOps, Option.some.injEq] at h
    subst h
    simp
  | cons op ops ih =>
    intro pref i rest out h
    obtain ⟨lit, tag⟩ := op
    simp only [applyOps] at h
    split at h
    rotate_left
    · exact absurd h (by simp)
    rename_i t hg
    split at h
    rotate_left
    · exact absurd h (by simp)
    rename_i tagIdx hf
    split at h
    rotate_left
    · exact absurd h (by simp)
    rename_i be b e hp
    obtain ⟨hi, hgetl⟩ := List.get?_eq_some.mp hg
    have hidx : tagIdx ≤ i := by
      by_contra hgt
      push_neg at hgt
      obtain ⟨hlen, -, hmin⟩ := List.findIdx?_eq_some_iff_getElem.mp hf
      refine hmin i hgt ?_
      have hgete : (pref ++ rest)[i] = Node.text t := by
        rw [List.getElem_append_left hi]
        rw [← hgetl]
        simp [List.get_eq_getElem]
      rw [hgete]
      simp
    have hlen1 : (pref.set i (.text b)).length = pref.length := by simp
    have hb1 : tagIdx + 1 ≤ (pref.set i (.text b)).length := by omega
    have hlen2 : ((pref.set i (.text b)).insertIdx (tagIdx + 1) tag).length =
        pref.length + 1 := by
      rw [List.length_insertIdx _ _ hb1, hlen1]
    have hb2 : tagIdx + 2 ≤ ((pref.set i (.text b)).insertIdx (tagIdx + 1) tag).length := by
      omega
    have hrec := ih _ _ _ _ h
    have p3perm := supTextsL_insertIdx (tagIdx + 2)
      ((pref.set i (.text b)).insertIdx (tagIdx + 1) tag) (.text e) hb2
    have p2perm := supTextsL_insertIdx (tagIdx + 1) (pref.set i (.text b)) tag hb1
    have hset : supTextsL (pref.set i (.text b)) = supTextsL pref :=
      supTextsL_set_text pref i b t hg
    apply perm_of_coe
    have c1 := coe_of_perm hrec
    have c2 := coe_of_perm p3perm
    have c3 := coe_of_perm p2perm
    simp only [← Multiset.coe_add, List.map_cons, List.flatMap_cons] at c1 c2 c3 ⊢
    rw [c1, c2, c3, hset]
    simp only [supTexts, ← Multiset.coe_add]
    abel

theorem spliceChildren_supPerm {σ : Type} (opsF : σ → String → σ × List (String × Node)) :
    ∀ (N : Nat) (inV : Bool) (st : σ) (acc rest : List Node) (out : List Node) (st2 : σ),
      nlsize rest ≤ N →
      noSupL rest = true →
      spliceChildren opsF inV st acc rest = some (out, st2) →
      st2 = (emitL opsF inV st rest).1 ∧
      List.Perm (supTextsL out)
        (supTextsL acc ++ ((emitL opsF inV st rest).2.map (fun op => op.2)).flatMap supTexts) := by
  intro N
  induction N with
  | zero =>
    intro inV st acc rest out st2 hN hns h
    cases rest with
    | nil =>
      simp only [spliceChildren, Option.some.injEq, Prod.mk.injEq] at h
      obtain ⟨h1, h2⟩ := h
      subst h1; subst h2
      simp [emitL]
    | cons c cs =>
      exfalso
      cases c <;> simp [nlsize, nsize] at hN
  | succ M ih =>
    intro inV st acc rest out st2 hN hns h
    cases rest with
    | nil =>
      simp only [spliceChildren, Option.some.injEq, Prod.mk.injEq] at h
      obtain ⟨h1, h2⟩ := h
      subst h1; subst h2
      simp [emitL]
    | cons c cs =>
      cases c with
      | text s =>
        have hcs : nlsize cs ≤ M := by simp [nlsize, nsize] at hN; omega
        have hnscs : noSupL cs = true := by simp [noSupL, noSupN] at hns; exact hns
        simp only [spliceChildren] at h
        by_cases hv : inV
        · rw [if_pos hv] at h
          obtain ⟨h1, h2⟩ := ih inV _ _ cs out st2 hcs hnscs h
          refine ⟨?_, ?_⟩
          · rw [h1]; simp [emitL, emitN, hv]
          · refine h2.trans (perm_of_coe ?_)
            rw [supTextsL_append]
            simp [emitL, emitN, hv, supTextsL, supTexts, ← Multiset.coe_add]
        · rw [if_neg hv] at h
          split at h
          rotate_left
          · exact absurd h (by simp)
          rename_i pref2 ha
          obtain ⟨h1, h2⟩ := ih inV _ _ cs out st2 hcs hnscs h
          have hops := applyOps_supPerm _ _ _ _ _ ha
          refine ⟨?_, ?_⟩
          · rw [h1]; simp [emitL, emitN, hv]
          · refine h2.trans (perm_of_coe ?_)
            have c1 := coe_of_perm hops
            rw [supTextsL_append] at c1
            have hemit : emitL opsF inV st (Node.text s :: cs) =
                ((emitL opsF inV ((opsF st s).1) cs).1,
                  (opsF st s).2 ++ (emitL opsF inV ((opsF st s).1) cs).2) := by
              simp [emitL, emitN, hv]
            rw [hemit]
            simp only [List.map_append, List.flatMap_append, ← Multiset.coe_add] at c1 ⊢
            rw [c1]
            simp [supTextsL, supTexts, ← Multiset.coe_add]
            abel
      | elem n a kids =>
        have hkids : nlsize kids ≤ M := by simp [nlsize, nsize] at hN; omega
        have hcs : nlsize cs ≤ M := by simp [nlsize, nsize] at hN; omega
        have hnskids : noSupL kids = true := by
          simp [noSupL, noSupN] at hns; exact hns.1.2
        have hnsup : (n == "sup") = false := by
          simp only [noSupL, noSupN, Bool.and_eq_true, Bool.not_eq_true'] at hns
          exact hns.1.1
        have hnscs : noSupL cs = true := by simp [noSupL, noSupN] at hns; exact hns.2
        simp only [spliceChildren, spliceElem] at h
        split at h
        rotate_left
        · exact absurd h (by simp)
        rename_i q hq
        split at hq
        rotate_left
        · exact absurd hq (by simp)
        rename_i p hp
        obtain ⟨kids2, st'⟩ := p
        simp only [Option.some.injEq] at hq
        subst hq
        simp only at h
        obtain ⟨hk1, hk2⟩ := ih _ _ [] kids kids2 st' hkids hnskids hp
        obtain ⟨h1, h2⟩ := ih inV st' _ cs out st2 hcs hnscs h
        refine ⟨?_, ?_⟩
        · rw [h1, hk1]; simp [emitL, emitN]
        · refine h2.trans (perm_of_coe ?_)
          have ck := coe_of_perm hk2
          simp only [supTextsL, List.append_nil, ← Multiset.coe_add] at ck
          have hemit : emitL opsF inV st (Node.elem n a kids :: cs) =
              ((emitL opsF inV (emitL opsF (inV || VERBATIM_TAGS.contains n) st kids).1 cs).1,
                (emitL opsF (inV || VERBATIM_TAGS.contains n) st kids).2 ++
                  (emitL opsF inV (emitL opsF (inV || VERBATIM_TAGS.contains n) st kids).1 cs).2) := by
            simp [emitL, emitN]
          rw [hemit, hk1]
          rw [supTextsL_append]
          simp only [List.map_append, List.flatMap_append, ← Multiset.coe_add]
          have hsupeq : supTexts (Node.elem n a kids2) = supTextsL kids2 := by
            simp [supTexts, hnsup]
          have hsupeq2 : supTextsL [Node.elem n a kids2] = supTextsL kids2 := by
            simp [supTextsL, hsupeq]
          rw [hsupeq2, ck]
          abel

theorem footnoteSpecNums_append : ∀ (xs ys : List String) (c : Nat),
    footnoteSpecNums c (xs ++ ys) =
      footnoteSpecNums c xs ++ footnoteSpecNums (List.foldl footnoteStep c xs) ys := by
  intro xs
  induction xs with
  | nil => intro ys c; simp [footnoteSpecNums]
  | cons m ms ih =>
    intro ys c
    simp only [List.cons_append, footnoteSpecNums, List.foldl_cons]
    rw [List.append_eq, ih]

theorem supTexts_footnote_tag (num : Nat) :
    supTexts (.elem "sup" [] [.text (toString num)]) = [toString num] := by
  simp [supTexts, supTextsL, textContentL, textContent]

theorem footnoteOpsGo_spec : ∀ (ms : List (String × String)) (c : Nat),
    (footnoteOpsGo c ms).1 = List.foldl footnoteStep c (ms.map (fun m => m.2)) ∧
    ((footnoteOpsGo c ms).2.map (fun op => op.2)).flatMap supTexts =
      (footnoteSpecNums c (ms.map (fun m => m.2))).map toString := by
  intro ms
  induction ms with
  | nil => intro c; simp [footnoteOpsGo, footnoteSpecNums]
  | cons m ms ih =>
    intro c
    have hnum : (if m.2.length != 0 then digitsToNat m.2.data else c) =
        (if m.2.length ≠ 0 then digitsToNat m.2.data else c) := by
      by_cases hz : m.2.length = 0 <;> simp [hz]
    have hstep : (if m.2.length == 0 || (if m.2.length != 0 then digitsToNat m.2.data else c) == c
          then c + 1 else c) = footnoteStep c m.2 := by
      unfold footnoteStep
      by_cases hz : m.2.length = 0
      · simp [hz]
      · by_cases he : digitsToNat m.2.data = c <;> simp [hz, he]
    simp only [footnoteOpsGo, List.map_cons, footnoteSpecNums, List.foldl_cons]
    rw [hstep]
    constructor
    · exact (ih _).1
    · simp only [List.map_cons, List.flatMap_cons]
      rw [supTexts_footnote_tag, (ih _).2, hnum]
      simp

mutual
theorem footnote_emitN_spec : ∀ (inV : Bool) (c : Nat) (nd : Node),
    (emitN footnoteOps inV c nd).1 = List.foldl footnoteStep c (markersN inV nd) ∧
    ((emitN footnoteOps inV c nd).2.map (fun op => op.2)).flatMap supTexts =
      (footnoteSpecNums c (markersN inV nd)).map toString
  | inV, c, .text s => by
    by_cases hv : inV
    · simp [emitN, markersN, hv, footnoteSpecNums]
    · have hgo := footnoteOpsGo_spec (bracketMatches s) c
      simpa [emitN, markersN, hv, footnoteOps] using hgo
  | inV, c, .elem n a kids => by
    simpa [emitN, markersN] using
      footnote_emitL_spec (inV || VERBATIM_TAGS.contains n) c kids
theorem footnote_emitL_spec : ∀ (inV : Bool) (c : Nat) (l : List Node),
    (emitL footnoteOps inV c l).1 = List.foldl footnoteStep c (markersL inV l) ∧
    ((emitL footnoteOps inV c l).2.map (fun op => op.2)).flatMap supTexts =
      (footnoteSpecNums c (markersL inV l)).map toString
  | inV, c, [] => by simp [emitL, markersL, footnoteSpecNums]
  | inV, c, nd :: l => by
    obtain ⟨h1, h2⟩ := footnote_emitN_spec inV c nd
    obtain ⟨h3, h4⟩ := footnote_emitL_spec inV ((emitN footnoteOps inV c nd).1) l
    constructor
    · simp only [emitL, markersL, List.foldl_append]
      rw [h3, h1]
    · simp only [emitL, markersL, List.map_append, List.flatMap_append]
      rw [h2, h4, h1, footnoteSpecNums_append]
      simp
end

/-- C4: in `add_footnotes` the per-article counter starts at 1; each marker
displays its literal number when present and the counter's current value
otherwise; and the counter advances to the displayed number plus one exactly
when the bracket was empty or its literal number equals the counter — an
out-of-sequence explicit number leaves the counter unchanged.  Formally: for
an article with no pre-existing `sup` element, the displayed numbers of the
`sup` elements `add_footnotes` creates are exactly
`footnoteSpecNums 1 (markersL false doc)` — the claim's update rule scanned
over the markers of the non-verbatim text in document order, starting at 1
(as a multiset; the splice positions are the matched spans). -/
theorem C4_footnote_counter_rule (doc out : Doc) (hns : noSupL doc = true)
    (h : add_footnotes doc = some out) :
    List.Perm (supTextsL out)
      ((footnoteSpecNums 1 (markersL false doc)).map toString) := by
  unfold add_footnotes at h
  cases hs : spliceChildren footnoteOps false 1 [] doc with
  | none => rw [hs] at h; simp at h
  | some p =>
    rw [hs] at h
    simp only [Option.map_some', Option.some.injEq] at h
    obtain ⟨out', st2⟩ := p
    obtain ⟨-, hperm⟩ := spliceChildren_supPerm footnoteOps (nlsize doc) false 1 [] doc
      out' st2 le_rfl hns hs
    have hemit := (footnote_emitL_spec false 1 doc).2
    rw [hemit] at hperm
    simp only at h
    subst h
    simpa [supTextsL] using hperm

/-- Witness for `C4_footnote_counter_rule` on the article `"[]"`: the single
empty marker displays the initial counter value 1. -/
theorem C4_witness :
    List.Perm (supTextsL [.text "", .elem "sup" [] [.text "1"], .text ""])
      ((footnoteSpecNums 1 (markersL false [.text "[]"])).map toString) :=
  C4_footnote_counter_rule [.text "[]"] [.text "", .elem "sup" [] [.text "1"], .text ""]
    (by decide) (by rfl)

theorem rsqFrom_length : ∀ (fuel idx : Nat) (arr : List Char),
    (rsqFrom fuel idx arr).length = arr.length := by
  intro fuel
  induction fuel with
  | zero => intro idx arr; rfl
  | succ f ih =>
    intro idx arr
    simp only [rsqFrom]
    split
    · rw [ih, List.length_set]
    split
    · rw [ih, List.length_set]
    · rw [ih]

theorem rsqFrom_get_nonquote : ∀ (fuel idx : Nat) (arr : List Char) (j : Nat),
    arr.get? j ≠ some dquoteChar → arr.get? j ≠ some squoteChar →
    (rsqFrom fuel idx arr).get? j = arr.get? j := by
  intro fuel
  induction fuel with
  | zero => intro idx arr j _ _; rfl
  | succ f ih =>
    intro idx arr j hd hs
    simp only [rsqFrom]
    by_cases hij : idx = j
    · subst hij
      have hchar : (arr.getD idx ' ' == dquoteChar) = false ∧
          (arr.getD idx ' ' == squoteChar) = false := by
        rw [List.getD_eq_getElem?_getD]
        cases hg : arr[idx]? with
        | none => simp [dquoteChar, squoteChar]
        | some c =>
          rw [← List.get?_eq_getElem?] at hg
          rw [hg] at hd hs
          simp only [Option.getD_some]
          constructor
          · simpa using fun hc => hd (by rw [hc])
          · simpa using fun hc => hs (by rw [hc])
      rw [hchar.1]
      simp only [Bool.false_eq_true, if_false]
      rw [hchar.2]
      simp only [Bool.false_eq_true, if_false]
      exact ih (idx + 1) arr idx hd hs
    · have hset : ∀ c : Char, (arr.set idx c).get? j = arr.get? j := by
        intro c
        simp only [List.get?_eq_getElem?]
        rw [List.getElem?_set_ne hij]
      split
      · rw [ih _ _ j (by rw [hset]; exact hd) (by rw [hset]; exact hs), hset]
      split
      · rw [ih _ _ j (by rw [hset]; exact hd) (by rw [hset]; exact hs), hset]
      · exact ih _ _ j hd hs

/-- C10: `replace_smart_quotes` returns a string of the same length, and
every character other than a straight double quote or straight single quote
is unchanged at its position (only straight quotes are ever replaced). -/
theorem C10_replace_smart_quotes_shape (s : String) :
    (replace_smart_quotes s).length = s.length ∧
    ∀ i : Nat, s.data.get? i ≠ some dquoteChar → s.data.get? i ≠ some squoteChar →
      (replace_smart_quotes s).data.get? i = s.data.get? i := by
  constructor
  · show (String.mk (rsqFrom s.data.length 0 s.data)).length = s.length
    exact rsqFrom_length s.data.length 0 s.data
  · intro i hd hs
    exact rsqFrom_get_nonquote s.data.length 0 s.data i hd hs

/-- Witness for `C10_replace_smart_quotes_shape` at the string `"a-b"`. -/
theorem C10_witness :
    (replace_smart_quotes "a-b").length = ("a-b" : String).length ∧
    (replace_smart_quotes "a-b").data.get? 1 = ("a-b" : String).data.get? 1 :=
  ⟨(C10_replace_smart_quotes_shape "a-b").1,
   (C10_replace_smart_quotes_shape "a-b").2 1 (by decide) (by decide)⟩

/-- C8: a straight quote sitting at a text-node boundary is resolved by
borrowing one character of context from the neighbouring text node and
stripping it back out afterwards.  For the document
`The "quick" <em>fox</em>` the plain-text prefix resolves to
`The “quick” ` — exactly the first 12 characters of resolving the unsplit
text `The "quick" fox`, so the quote characters outside the `em` element
receive the same directions as in the unsplit text, and the `em` content is
untouched. -/
theorem C8_quotes_across_node_boundary :
    add_smart_quotes [.text "The \"quick\" ", .elem "em" [] [.text "fox"]] =
      some [.text "The “quick” ", .elem "em" [] [.text "fox"]] ∧
    replace_smart_quotes "The \"quick\" fox" = "The “quick” fox" ∧
    ("The “quick” " : String).data =
      (replace_smart_quotes "The \"quick\" fox").data.take 12 := by
  refine ⟨?_, ?_, ?_⟩ <;> rfl

mutual
theorem mapTextN_linkTexts :
    ∀ (f : String → String) (useV : Bool) (inV inL : Bool) (c : Node),
    linkTexts inL (mapTextN f useV true inV inL c) = linkTexts inL c
  | f, useV, inV, inL, .text s => by
    by_cases hL : inL
    · simp [mapTextN, linkTexts, hL]
    · simp only [Bool.eq_false_iff, ne_eq] at hL
      simp only [mapTextN, hL]
      by_cases hg : (useV && inV) = true <;> simp [hg, linkTexts, hL]
  | f, useV, inV, inL, .elem n a cs => by
    simp only [mapTextN, linkTexts]
    exact mapTextL_linkTexts f useV (inV || VERBATIM_TAGS.contains n) (inL || n == LINK_TAG) cs
theorem mapTextL_linkTexts :
    ∀ (f : String → String) (useV : Bool) (inV inL : Bool) (l : List Node),
    linkTextsL inL (mapTextL f useV true inV inL l) = linkTextsL inL l
  | f, useV, inV, inL, [] => by simp [mapTextL, linkTextsL]
  | f, useV, inV, inL, c :: cs => by
    simp only [mapTextL, linkTextsL]
    rw [mapTextN_linkTexts f useV inV inL c, mapTextL_linkTexts f useV inV inL cs]
end

/-- C7 (amended): `replace_dashes` consults `is_link_component` and leaves
the content of every text node inside a `link` element unchanged.
`add_smart_quotes`, however, consults only `keep_verbatim` and rewrites
straight quotes inside links too — the original claim, which asserted the
frame property for both passes, is refuted by `C7_counterexample`. -/
theorem C7_replace_dashes_preserves_link_text (doc : Doc) :
    linkTextsL false (replace_dashes doc) = linkTextsL false doc :=
  mapTextL_linkTexts replace_dashes_text true false false doc

/-- C7 counterexample: `add_smart_quotes` rewrites a straight quote inside a
`link` element (it never consults `is_link_component`), so the smart-quote
pass does not leave link text unchanged. -/
theorem C7_counterexample :
    add_smart_quotes [.elem "link" [("href", "u")] [.text "a\"b"]] =
      some [.elem "link" [("href", "u")] [.text "a”b"]] ∧
    linkTextsL false [.elem "link" [("href", "u")] [.text "a”b"]] ≠
      linkTextsL false [.elem "link" [("href", "u")] [.text "a\"b"]] := by
  constructor
  · rfl
  · decide

theorem namesOKL_append (bad : String → Bool) (l1 l2 : List Node) :
    namesOKL bad (l1 ++ l2) = (namesOKL bad l1 && namesOKL bad l2) := by
  induction l1 with
  | nil => simp [namesOKL]
  | cons c cs ih => simp [namesOKL, ih, Bool.and_assoc]

theorem namesOKL_dropLast (bad : String → Bool) :
    ∀ l : List Node, namesOKL bad l = true → namesOKL bad l.dropLast = true := by
  intro l
  induction l with
  | nil => intro h; exact h
  | cons c cs ih =>
    intro h
    cases cs with
    | nil => simp [namesOKL]
    | cons d ds =>
      simp only [namesOKL, Bool.and_eq_true] at h
      simp only [List.dropLast_cons₂, namesOKL, Bool.and_eq_true]
      exact ⟨h.1, ih (by simp [namesOKL, h.2.1, h.2.2])⟩

theorem namesOKL_flatMapContrib (bad : String → Bool) :
    ∀ l : List Node, namesOKL bad l = true →
      namesOKL bad (l.flatMap flattenContribution) = true := by
  intro l
  induction l with
  | nil => intro h; exact h
  | cons c cs ih =>
    intro h
    simp only [namesOKL, Bool.and_eq_true] at h
    rw [List.flatMap_cons, namesOKL_append, Bool.and_eq_true]
    refine ⟨?_, ih h.2⟩
    cases c with
    | text s => simp [flattenContribution, namesOKL]
    | elem n a kids =>
      simp only [flattenContribution]
      by_cases hli : (n == "li") = true
      · rw [if_pos hli, namesOKL_append]
        have hk : namesOKL bad kids = true := by
          have := h.1
          simp only [namesOKN, Bool.and_eq_true] at this
          exact this.2
        simp [hk, namesOKL, namesOKN]
      · rw [if_neg hli]
        simp [namesOKL, namesOKN]

mutual
theorem namesOK_flattenN (bad : String → Bool) :
    ∀ c : Node, namesOKN bad c = true → namesOKN bad (flattenListsN c) = true
  | .text s => by intro h; exact h
  | .elem n a kids => by
    intro h
    simp only [namesOKN, Bool.and_eq_true] at h
    have hk := namesOK_flattenL bad kids h.2
    simp only [flattenListsN]
    by_cases hl : (["ul", "ol", "profquotes"].contains n) = true
    · rw [if_pos hl]
      simp only [namesOKN, Bool.and_eq_true]
      exact ⟨h.1, namesOKL_dropLast bad _ (namesOKL_flatMapContrib bad _ hk)⟩
    · rw [if_neg hl]
      simp only [namesOKN, Bool.and_eq_true]
      exact ⟨h.1, hk⟩
theorem namesOK_flattenL (bad : String → Bool) :
    ∀ l : List Node, namesOKL bad l = true → namesOKL bad (flattenListsL l) = true
  | [] => by intro h; exact h
  | c :: cs => by
    intro h
    simp only [namesOKL, Bool.and_eq_true] at h
    simp only [flattenListsL, namesOKL, Bool.and_eq_true]
    exact ⟨namesOK_flattenN bad c h.1, namesOK_flattenL bad cs h.2⟩
end

mutual
theorem renameLists_okN (base : String) (family : List String) (maxD : Nat) (wrapName : String)
    (hbase : family.contains base = true)
    (hvar : ∀ level, 1 < level → level ≤ maxD → family.contains (base ++ toString level) = true)
    (hwrap : family.contains wrapName = false) :
    ∀ (anc : Nat) (c c2 : Node),
      namesOKN (fun n => family.contains n && !(n == base)) c = true →
      renameListsN base family maxD wrapName anc c = some c2 →
      famNamesOKN family (variantName base maxD) anc c2 = true
  | anc, .text s, c2 => by
    intro _ heq
    simp only [renameListsN, Option.some.injEq] at heq
    subst heq
    rfl
  | anc, .elem n a kids, c2 => by
    intro h heq
    simp only [namesOKN, Bool.and_eq_true] at h
    obtain ⟨hbadn, hkids⟩ := h
    simp only [renameListsN] at heq
    by_cases hn : (n == base) = true
    · rw [if_pos hn] at heq
      have hnb : n = base := by simpa using hn
      subst hnb
      by_cases h1 : anc + 1 = 1
      · rw [if_pos h1] at heq
        have ha0 : anc = 0 := by omega
        subst ha0
        split at heq
        · exact absurd heq (by simp)
        rename_i k ks
        simp only [namesOKL, Bool.and_eq_true] at hkids
        split at heq
        rotate_left
        · exact absurd heq (by simp)
        rename_i k2 ks2 hk hks
        simp only [Option.some.injEq] at heq
        subst heq
        rw [if_neg (by omega : ¬(1 < 0 + 1 ∧ 0 + 1 ≤ maxD))]
        simp only [famNamesOKN, famNamesOKL, hbase, if_pos, hwrap,
          Bool.false_eq_true, if_false, Bool.and_eq_true]
        refine ⟨?_, ?_, ?_⟩
        · have : variantName n maxD (0 + 1) = n := by
            unfold variantName
            rw [if_neg (by omega)]
          simp [this]
        · have hk2 := renameLists_okN n family maxD wrapName hbase hvar hwrap
            (0 + 1) k k2 hkids.1 hk
          simp [famNamesOKL, hk2]
        · exact renameLists_okL n family maxD wrapName hbase hvar hwrap
            (0 + 1) ks ks2 hkids.2 hks
      · rw [if_neg h1] at heq
        cases hks : renameListsL n family maxD wrapName (anc + 1) kids with
        | none => rw [hks] at heq; simp at heq
        | some kids2 =>
          rw [hks] at heq
          simp only [Option.map_some', Option.some.injEq] at heq
          subst heq
          have hrec := renameLists_okL n family maxD wrapName hbase hvar hwrap
            (anc + 1) kids kids2 hkids hks
          by_cases hD : anc + 1 ≤ maxD
          · have h2 : 1 < anc + 1 := by omega
            rw [if_pos ⟨h2, hD⟩]
            simp only [famNamesOKN, hvar (anc + 1) h2 hD, if_pos, Bool.and_eq_true]
            refine ⟨?_, hrec⟩
            have : variantName n maxD (anc + 1) = n ++ toString (anc + 1) := by
              unfold variantName
              rw [if_pos ⟨h2, hD⟩]
            simp [this]
          · rw [if_neg (by omega : ¬(1 < anc + 1 ∧ anc + 1 ≤ maxD))]
            simp only [famNamesOKN, hbase, if_pos, Bool.and_eq_true]
            refine ⟨?_, hrec⟩
            have : variantName n maxD (anc + 1) = n := by
              unfold variantName
              rw [if_neg (by omega)]
            simp [this]
    · rw [if_neg hn] at heq
      have hcont : family.contains n = false := by
        rw [Bool.not_eq_true] at hn
        simpa [hn] using hbadn
      rw [hcont] at heq
      simp only [Bool.false_eq_true, if_false] at heq
      cases hks : renameListsL base family maxD wrapName anc kids with
      | none => rw [hks] at heq; simp at heq
      | some kids2 =>
        rw [hks] at heq
        simp only [Option.map_some', Option.some.injEq] at heq
        subst heq
        simp only [famNamesOKN, hcont, Bool.false_eq_true, if_false]
        exact renameLists_okL base family maxD wrapName hbase hvar hwrap
          anc kids kids2 hkids hks
theorem renameLists_okL (base : String) (family : List String) (maxD : Nat) (wrapName : String)
    (hbase : family.contains base = true)
    (hvar : ∀ level, 1 < level → level ≤ maxD → family.contains (base ++ toString level) = true)
    (hwrap : family.contains wrapName = false) :
    ∀ (anc : Nat) (l l2 : List Node),
      namesOKL (fun n => family.contains n && !(n == base)) l = true →
      renameListsL base family maxD wrapName anc l = some l2 →
      famNamesOKL family (variantName base maxD) anc l2 = true
  | anc, [], l2 => by
    intro _ heq
    simp only [renameListsL, Option.some.injEq] at heq
    subst heq
    rfl
  | anc, c :: cs, l2 => by
    intro h heq
    simp only [namesOKL, Bool.and_eq_true] at h
    simp only [renameListsL] at heq
    cases hc : renameListsN base family maxD wrapName anc c with
    | none => rw [hc] at heq; simp at heq
    | some c2 =>
      cases hcs : renameListsL base family maxD wrapName anc cs with
      | none => rw [hc, hcs] at heq; simp at heq
      | some cs2 =>
        rw [hc, hcs] at heq
        simp only [Option.map_some', Option.some.injEq] at heq
        subst heq
        simp only [famNamesOKL, Bool.and_eq_true]
        exact ⟨renameLists_okN base family maxD wrapName hbase hvar hwrap anc c c2 h.1 hc,
          renameLists_okL base family maxD wrapName hbase hvar hwrap anc cs cs2 h.2 hcs⟩
end

mutual
theorem renameLists_presNamesN (base : String) (family : List String) (maxD : Nat)
    (wrapName : String) (bad : String → Bool)
    (hb1 : ∀ level, 1 < level → level ≤ maxD → bad (base ++ toString level) = false)
    (hb2 : bad wrapName = false) :
    ∀ (anc : Nat) (c c2 : Node),
      namesOKN bad c = true →
      renameListsN base family maxD wrapName anc c = some c2 →
      namesOKN bad c2 = true
  | anc, .text s, c2 => by
    intro h heq
    simp only [renameListsN, Option.some.injEq] at heq
    subst heq
    exact h
  | anc, .elem n a kids, c2 => by
    intro h heq
    simp only [namesOKN, Bool.and_eq_true] at h
    obtain ⟨hbadn, hkids⟩ := h
    simp only [renameListsN] at heq
    by_cases hn : (n == base) = true
    · rw [if_pos hn] at heq
      have hnb : n = base := by simpa using hn
      subst hnb
      by_cases h1 : anc + 1 = 1
      · rw [if_pos h1] at heq
        have ha0 : anc = 0 := by omega
        subst ha0
        split at heq
        · exact absurd heq (by simp)
        rename_i k ks
        simp only [namesOKL, Bool.and_eq_true] at hkids
        split at heq
        rotate_left
        · exact absurd heq (by simp)
        rename_i k2 ks2 hk hks
        simp only [Option.some.injEq] at heq
        subst heq
        rw [if_neg (by omega : ¬(1 < 0 + 1 ∧ 0 + 1 ≤ maxD))]
        have hk2 := renameLists_presNamesN n family maxD wrapName bad hb1 hb2
          (0 + 1) k k2 hkids.1 hk
        have hks2 := renameLists_presNamesL n family maxD wrapName bad hb1 hb2
          (0 + 1) ks ks2 hkids.2 hks
        simp [namesOKN, namesOKL, hb2, hk2, hks2, hbadn]
      · rw [if_neg h1] at heq
        cases hks : renameListsL n family maxD wrapName (anc + 1) kids with
        | none => rw [hks] at heq; simp at heq
        | some kids2 =>
          rw [hks] at heq
          simp only [Option.map_some', Option.some.injEq] at heq
          subst heq
          have hrec := renameLists_presNamesL n family maxD wrapName bad hb1 hb2
            (anc + 1) kids kids2 hkids hks
          by_cases hD : anc + 1 ≤ maxD
          · have h2 : 1 < anc + 1 := by omega
            rw [if_pos ⟨h2, hD⟩]
            simp only [namesOKN, Bool.and_eq_true]
            exact ⟨by simp [hb1 (anc + 1) h2 hD], hrec⟩
          · rw [if_neg (by omega : ¬(1 < anc + 1 ∧ anc + 1 ≤ maxD))]
            simp only [namesOKN, Bool.and_eq_true]
            exact ⟨by simpa using hbadn, hrec⟩
    · rw [if_neg hn] at heq
      cases hks : renameListsL base family maxD wrapName
          (if family.contains n then anc + 1 else anc) kids with
      | none => rw [hks] at heq; simp at heq
      | some kids2 =>
        rw [hks] at heq
        simp only [Option.map_some', Option.some.injEq] at heq
        subst heq
        simp only [namesOKN, Bool.and_eq_true]
        exact ⟨by simpa using hbadn, renameLists_presNamesL base family maxD wrapName bad hb1 hb2
          _ kids kids2 hkids hks⟩
theorem renameLists_presNamesL (base : String) (family : List String) (maxD : Nat)
    (wrapName : String) (bad : String → Bool)
    (hb1 : ∀ level, 1 < level → level ≤ maxD → bad (base ++ toString level) = false)
    (hb2 : bad wrapName = false) :
    ∀ (anc : Nat) (l l2 : List Node),
      namesOKL bad l = true →
      renameListsL base family maxD wrapName anc l = some l2 →
      namesOKL bad l2 = true
  | anc, [], l2 => by
    intro h heq
    simp only [renameListsL, Option.some.injEq] at heq
    subst heq
    exact h
  | anc, c :: cs, l2 => by
    intro h heq
    simp only [namesOKL, Bool.and_eq_true] at h
    simp only [renameListsL] at heq
    cases hc : renameListsN base family maxD wrapName anc c with
    | none => rw [hc] at heq; simp at heq
    | some c2 =>
      cases hcs : renameListsL base family maxD wrapName anc cs with
      | none => rw [hc, hcs] at heq; simp at heq
      | some cs2 =>
        rw [hc, hcs] at heq
        simp only [Option.map_some', Option.some.injEq] at heq
        subst heq
        simp only [namesOKL, Bool.and_eq_true]
        exact ⟨renameLists_presNamesN base family maxD wrapName bad hb1 hb2 anc c c2 h.1 hc,
          renameLists_presNamesL base family maxD wrapName bad hb1 hb2 anc cs cs2 h.2 hcs⟩
end

mutual
theorem renameLists_presFamN (base : String) (family : List String) (maxD : Nat)
    (wrapName : String) (fam2 : List String) (var2 : Nat → String)
    (hc1 : ∀ level, 1 < level → level ≤ maxD → fam2.contains (base ++ toString level) = false)
    (hc2 : fam2.contains wrapName = false)
    (hc3 : fam2.contains base = false) :
    ∀ (anc k : Nat) (c c2 : Node),
      famNamesOKN fam2 var2 k c = true →
      renameListsN base family maxD wrapName anc c = some c2 →
      famNamesOKN fam2 var2 k c2 = true
  | anc, k, .text s, c2 => by
    intro h heq
    simp only [renameListsN, Option.some.injEq] at heq
    subst heq
    exact h
  | anc, k, .elem n a kids, c2 => by
    intro h heq
    simp only [renameListsN] at heq
    by_cases hn : (n == base) = true
    · rw [if_pos hn] at heq
      have hnb : n = base := by simpa using hn
      subst hnb
      simp only [famNamesOKN, hc3, Bool.false_eq_true, if_false] at h
      by_cases h1 : anc + 1 = 1
      · rw [if_pos h1] at heq
        have ha0 : anc = 0 := by omega
        subst ha0
        split at heq
        · exact absurd heq (by simp)
        rename_i kd ks
        simp only [famNamesOKL, Bool.and_eq_true] at h
        split at heq
        rotate_left
        · exact absurd heq (by simp)
        rename_i k2 ks2 hk hks
        simp only [Option.some.injEq] at heq
        subst heq
        rw [if_neg (by omega : ¬(1 < 0 + 1 ∧ 0 + 1 ≤ maxD))]
        have hkd2 := renameLists_presFamN n family maxD wrapName fam2 var2 hc1 hc2 hc3
          (0 + 1) k kd k2 h.1 hk
        have hks2 := renameLists_presFamL n family maxD wrapName fam2 var2 hc1 hc2 hc3
          (0 + 1) k ks ks2 h.2 hks
        simp only [famNamesOKN, famNamesOKL, hc2, hc3, Bool.false_eq_true, if_false,
          Bool.and_true, Bool.and_eq_true]
        exact ⟨hkd2, hks2⟩
      · rw [if_neg h1] at heq
        cases hks : renameListsL n family maxD wrapName (anc + 1) kids with
        | none => rw [hks] at heq; simp at heq
        | some kids2 =>
          rw [hks] at heq
          simp only [Option.map_some', Option.some.injEq] at heq
          subst heq
          have hrec := renameLists_presFamL n family maxD wrapName fam2 var2 hc1 hc2 hc3
            (anc + 1) k kids kids2 h hks
          by_cases hD : anc + 1 ≤ maxD
          · have h2 : 1 < anc + 1 := by omega
            rw [if_pos ⟨h2, hD⟩]
            simp only [famNamesOKN, hc1 (anc + 1) h2 hD, Bool.false_eq_true, if_false]
            exact hrec
          · rw [if_neg (by omega : ¬(1 < anc + 1 ∧ anc + 1 ≤ maxD))]
            simp only [famNamesOKN, hc3, Bool.false_eq_true, if_false]
            exact hrec
    · rw [if_neg hn] at heq
      cases hks : renameListsL base family maxD wrapName
          (if family.contains n then anc + 1 else anc) kids with
      | none => rw [hks] at heq; simp at heq
      | some kids2 =>
        rw [hks] at heq
        simp only [Option.map_some', Option.some.injEq] at heq
        subst heq
        simp only [famNamesOKN] at h ⊢
        by_cases hf2 : fam2.contains n = true
        · rw [hf2] at h ⊢
          simp only [if_pos, Bool.and_eq_true] at h ⊢
          exact ⟨h.1, renameLists_presFamL base family maxD wrapName fam2 var2 hc1 hc2 hc3
            _ (k + 1) kids kids2 h.2 hks⟩
        · rw [Bool.not_eq_true] at hf2
          rw [hf2] at h ⊢
          simp only [Bool.false_eq_true, if_false] at h ⊢
          exact renameLists_presFamL base family maxD wrapName fam2 var2 hc1 hc2 hc3
            _ k kids kids2 h hks
theorem renameLists_presFamL (base : String) (family : List String) (maxD : Nat)
    (wrapName : String) (fam2 : List String) (var2 : Nat → String)
    (hc1 : ∀ level, 1 < level → level ≤ maxD → fam2.contains (base ++ toString level) = false)
    (hc2 : fam2.contains wrapName = false)
    (hc3 : fam2.contains base = false) :
    ∀ (anc k : Nat) (l l2 : List Node),
      famNamesOKL fam2 var2 k l = true →
      renameListsL base family maxD wrapName anc l = some l2 →
      famNamesOKL fam2 var2 k l2 = true
  | anc, k, [], l2 => by
    intro h heq
    simp only [renameListsL, Option.some.injEq] at heq
    subst heq
    exact h
  | anc, k, c :: cs, l2 => by
    intro h heq
    simp only [famNamesOKL, Bool.and_eq_true] at h
    simp only [renameListsL] at heq
    cases hc : renameListsN base family maxD wrapName anc c with
    | none => rw [hc] at heq; simp at heq
    | some c2 =>
      cases hcs : renameListsL base family maxD wrapName anc cs with
      | none => rw [hc, hcs] at heq; simp at heq
      | some cs2 =>
        rw [hc, hcs] at heq
        simp only [Option.map_some', Option.some.injEq] at heq
        subst heq
        simp only [famNamesOKL, Bool.and_eq_true]
        exact ⟨renameLists_presFamN base family maxD wrapName fam2 var2 hc1 hc2 hc3
            anc k c c2 h.1 hc,
          renameLists_presFamL base family maxD wrapName fam2 var2 hc1 hc2 hc3
            anc k cs cs2 h.2 hcs⟩
end

/-- C6 counterexample: in a six-deep nested unordered list, `fix_lists`
renames the lists to `ul, ul2, ul3, ul4, ul5` — and then leaves the sixth,
deepest list as plain `ul`, *not* `ul5` as the claim states (the rename
condition `1 < level <= 5` simply fails for level 6, so no renaming happens
at all). -/
theorem C6_counterexample :
    ((fix_lists [.elem "ul" [] [.elem "li" [] [.elem "ul" [] [.elem "li" [] [.elem "ul" []
        [.elem "li" [] [.elem "ul" [] [.elem "li" [] [.elem "ul" [] [.elem "li" []
        [.elem "ul" [] [.elem "li" [] [.text "A"]]]]]]]]]]]]]).map ulFamilyNamesL)
      = some ["ul", "ul2", "ul3", "ul4", "ul5", "ul"] ∧
    ((fix_lists [.elem "ul" [] [.elem "li" [] [.elem "ul" [] [.elem "li" [] [.elem "ul" []
        [.elem "li" [] [.elem "ul" [] [.elem "li" [] [.elem "ul" [] [.elem "li" []
        [.elem "ul" [] [.elem "li" [] [.text "A"]]]]]]]]]]]]]).map ulFamilyNamesL)
      ≠ some ["ul", "ul2", "ul3", "ul4", "ul5", "ul5"] := by
  constructor
  · rfl
  · decide

/-- C6 (amended): for every list element processed by `fix_lists`, nesting
depth is the number of same-family list ancestors plus one (`ul` counts
`ul, ul2..ul5`; `ol` counts `ol, ol2, ol3`); a list of depth 2 up to the
maximum supported depth (5 unordered, 3 ordered) is renamed to the
depth-specific variant tag — and a list nested deeper than the maximum
*keeps its plain tag name* (`ul`/`ol`) rather than receiving the deepest
variant (see `C6_counterexample`).  Formally: for an article containing no
pre-existing depth-variant tags, every family-named element of the output
tree with `k` same-family ancestors is named `variantName (k+1)`, where
`variantName` yields the depth tag for depths 2..max and the plain name
otherwise. -/
theorem C6_list_depth_renaming (doc out : Doc)
    (hU : namesOKL ulBadName doc = true) (hO : namesOKL olBadName doc = true)
    (h : fix_lists doc = some out) :
    ulNamesOKL 0 out = true ∧ olNamesOKL 0 out = true := by
  have hvar_ul : ∀ level, 1 < level → level ≤ 5 →
      ulFamily.contains ("ul" ++ toString level) = true := by
    intro level h1 h5
    have hcases : level = 2 ∨ level = 3 ∨ level = 4 ∨ level = 5 := by omega
    rcases hcases with hx | hx | hx | hx <;> subst hx <;> decide
  have hvar_ol : ∀ level, 1 < level → level ≤ 3 →
      olFamily.contains ("ol" ++ toString level) = true := by
    intro level h1 h3
    have hcases : level = 2 ∨ level = 3 := by omega
    rcases hcases with hx | hx <;> subst hx <;> decide
  have hb1 : ∀ level, 1 < level → level ≤ 5 →
      olBadName ("ul" ++ toString level) = false := by
    intro level h1 h5
    have hcases : level = 2 ∨ level = 3 ∨ level = 4 ∨ level = 5 := by omega
    rcases hcases with hx | hx | hx | hx <;> subst hx <;> decide
  have hc1 : ∀ level, 1 < level → level ≤ 3 →
      ulFamily.contains ("ol" ++ toString level) = false := by
    intro level h1 h3
    have hcases : level = 2 ∨ level = 3 := by omega
    rcases hcases with hx | hx <;> subst hx <;> decide
  unfold fix_lists at h
  cases hul : renameULsL 0 (flattenListsL doc) with
  | none => rw [hul] at h; simp at h
  | some d2 =>
    rw [hul] at h
    have hU1 : namesOKL ulBadName (flattenListsL doc) = true :=
      namesOK_flattenL ulBadName doc hU
    have hO1 : namesOKL olBadName (flattenListsL doc) = true :=
      namesOK_flattenL olBadName doc hO
    have hulOK : famNamesOKL ulFamily (variantName "ul" 5) 0 d2 = true :=
      renameLists_okL "ul" ulFamily 5 "ul_first" (by decide) hvar_ul (by decide)
        0 _ d2 hU1 hul
    have hd2ol : namesOKL olBadName d2 = true :=
      renameLists_presNamesL "ul" ulFamily 5 "ul_first" olBadName hb1 (by decide)
        0 _ d2 hO1 hul
    have holOK : famNamesOKL olFamily (variantName "ol" 3) 0 out = true :=
      renameLists_okL "ol" olFamily 3 "ol_first" (by decide) hvar_ol (by decide)
        0 d2 out hd2ol h
    have hulOK2 : famNamesOKL ulFamily (variantName "ul" 5) 0 out = true :=
      renameLists_presFamL "ol" olFamily 3 "ol_first" ulFamily (variantName "ul" 5)
        hc1 (by decide) (by decide) 0 0 d2 out hulOK h
    exact ⟨hulOK2, holOK⟩

/-- Witness for `C6_list_depth_renaming` on the spec's own two-level example
`<ul><li>A<ul><li>B</li></ul></li></ul>`: the outer list keeps `ul` (its
first item wrapped in `ul_first`), the nested list becomes `ul2`. -/
theorem C6_witness :
    ulNamesOKL 0 [.elem "ul" [] [.elem "ul_first" [] [.text "A"],
      .elem "ul2" [] [.text "B"]]] = true ∧
    olNamesOKL 0 [.elem "ul" [] [.elem "ul_first" [] [.text "A"],
      .elem "ul2" [] [.text "B"]]] = true :=
  C6_list_depth_renaming
    [.elem "ul" [] [.elem "li" [] [.text "A", .elem "ul" [] [.elem "li" [] [.text "B"]]]]]
    [.elem "ul" [] [.elem "ul_first" [] [.text "A"], .elem "ul2" [] [.text "B"]]]
    (by decide) (by decide) (by rfl)

/-! #### C9: collaborator failures skip the match and continue -/

/-- When the external compiler fails on every body, `latexOpsGo` emits no
splice operations and leaves the compiled memo empty. -/
theorem latexOpsGo_allfail (ok : String → Bool → Bool) (fname : String → String)
    (hok : ∀ b d, ok b d = false) :
    ∀ (ms : List (String × String × Bool)) (valid : List (String × Bool)),
      (latexOpsGo ok fname ms (valid, [])).2 = [] ∧
      (latexOpsGo ok fname ms (valid, [])).1.2 = [] := by
  intro ms
  induction ms with
  | nil => intro valid; simp [latexOpsGo]
  | cons m rest ih =>
    intro valid
    simp only [latexOpsGo]
    by_cases hmem : (alistGet valid m.2.1 == some false) = true
    · rw [if_pos hmem]; exact ih valid
    · rw [if_neg hmem]
      have hnone : (alistGet ([] : List (String × Bool)) m.1).isNone = true := rfl
      rw [if_pos hnone, hok m.2.1 m.2.2, if_neg (by simp)]
      exact ih ((m.2.1, false) :: valid)

/-- A splicing pass whose per-node operation list is always empty (under a
state invariant `P`) leaves the tree unchanged. -/
theorem spliceChildren_noop {σ : Type} (opsF : σ → String → σ × List (String × Node))
    (P : σ → Prop)
    (hops : ∀ st s, P st → (opsF st s).2 = [] ∧ P (opsF st s).1) :
    ∀ (N : Nat) (inV : Bool) (st : σ) (acc rest : List Node),
      nlsize rest ≤ N → P st →
      ∃ st2, spliceChildren opsF inV st acc rest = some (acc ++ rest, st2) ∧ P st2 := by
  intro N
  induction N with
  | zero =>
    intro inV st acc rest hN hP
    cases rest with
    | nil => exact ⟨st, by simp [spliceChildren], hP⟩
    | cons c cs => exfalso; cases c <;> simp [nlsize, nsize] at hN
  | succ M ih =>
    intro inV st acc rest hN hP
    cases rest with
    | nil => exact ⟨st, by simp [spliceChildren], hP⟩
    | cons c cs =>
      cases c with
      | text s =>
        have hcs : nlsize cs ≤ M := by simp [nlsize, nsize] at hN; omega
        by_cases hv : inV
        · subst hv
          obtain ⟨st2, heq, hP2⟩ := ih true st (acc ++ [Node.text s]) cs hcs hP
          refine ⟨st2, ?_, hP2⟩
          simp [spliceChildren, heq]
        · have hveq : inV = false := by simpa using hv
          subst hveq
          obtain ⟨hnil, hP1⟩ := hops st s hP
          obtain ⟨st2, heq, hP2⟩ := ih false ((opsF st s).1) (acc ++ [Node.text s]) cs hcs hP1
          refine ⟨st2, ?_, hP2⟩
          simp [spliceChildren, hnil, applyOps, heq]
      | elem n a kids =>
        have hkids : nlsize kids ≤ M := by simp [nlsize, nsize] at hN; omega
        have hcs : nlsize cs ≤ M := by simp [nlsize, nsize] at hN; omega
        obtain ⟨st', hk, hP'⟩ := ih (inV || VERBATIM_TAGS.contains n) st [] kids hkids hP
        obtain ⟨st2, heq, hP2⟩ := ih inV st' (acc ++ [Node.elem n a kids]) cs hcs hP'
        refine ⟨st2, ?_, hP2⟩
        rw [List.nil_append] at hk
        have hk2 : spliceElem opsF inV st (Node.elem n a kids) = some (Node.elem n a kids, st') := by
          simp only [spliceElem]
          rw [hk]
        simp only [spliceChildren, hk2]
        rw [heq]
        simp

/-- C9: a collaborator failure is caught at the failing match, the matched
literal text stays in the tree, and the pass continues.  (1) If the LaTeX
compiler collaborator fails on every body, `compile_latex` returns the
article unchanged (no abort, no splice).  (2) On a text node with a failing
`\(bad\)` match followed by a succeeding `\(good\)` match, the failing
literal is retained and the later match is still replaced by its link tag.
(3) In `convert_imgur_embeds` with the gallery fetch collaborator failing
(the match without an extension needs a fetch; the `.png` match does not),
the fetched match's literal is retained and the pass continues to the next
match, which is replaced by its `img` tag. -/
theorem C9_collaborator_failures_skip_and_continue :
    (∀ (ok : String → Bool → Bool) (fname : String → String) (doc : Doc),
        (∀ b d, ok b d = false) → compile_latex ok fname doc = some doc) ∧
    compile_latex (fun b _ => b == "good") (fun _ => "F")
        [.text "\\(bad\\) mid \\(good\\)"] =
      some [.text "\\(bad\\) mid ", latexLinkTag "F", .text ""] ∧
    convert_imgur_embeds (fun _ => none)
        [.text "[embed]//imgur.com/abcde[/embed] mid [embed]//imgur.com/fghij.png[/embed]"] =
      some [.text "[embed]//imgur.com/abcde[/embed] mid ",
        imgTag "https://i.imgur.com/fghij.png", .text ""] := by
  refine ⟨?_, by rfl, by rfl⟩
  intro ok fname doc hok
  have hops : ∀ (st : LatexMemos) (s : String), st.2 = [] →
      (latexOps ok fname st s).2 = [] ∧ ((latexOps ok fname st s).1).2 = [] := by
    intro st s hst
    obtain ⟨v, c⟩ := st
    simp only at hst
    subst hst
    exact latexOpsGo_allfail ok fname hok _ v
  obtain ⟨st2, heq, _⟩ := spliceChildren_noop (latexOps ok fname)
    (fun st => st.2 = []) hops (nlsize doc) false ([], []) [] doc (le_refl _) rfl
  simp [compile_latex, heq]

/-- Witness for C9: the all-fail identity at a concrete article. -/
theorem C9_witness :
    compile_latex (fun _ _ => false) (fun _ => "F") [.text "\\(x\\) y"] =
      some [.text "\\(x\\) y"] :=
  C9_collaborator_failures_skip_and_continue.1 (fun _ _ => false) (fun _ => "F")
    [.text "\\(x\\) y"] (fun _ _ => rfl)

/-! #### C1: the verbatim-region invariant -/

theorem verbatimTextsL_append (inV : Bool) (l1 l2 : List Node) :
    verbatimTextsL inV (l1 ++ l2) = verbatimTextsL inV l1 ++ verbatimTextsL inV l2 := by
  induction l1 with
  | nil => simp [verbatimTextsL]
  | cons c cs ih => simp [verbatimTextsL, ih]

theorem verbatimTextsL_set_text : ∀ (l : List Node) (i : Nat) (b t : String),
    l.get? i = some (.text t) →
    verbatimTextsL false (l.set i (.text b)) = verbatimTextsL false l := by
  intro l
  induction l with
  | nil => intro i b t h; simp at h
  | cons c cs ih =>
    intro i b t h
    cases i with
    | zero =>
      simp only [List.get?] at h
      cases h
      simp [List.set, verbatimTextsL, verbatimTexts]
    | succ j =>
      simp only [List.get?] at h
      simp [List.set, verbatimTextsL, ih j b t h]

theorem verbatimTextsL_insertIdx_nil : ∀ (n : Nat) (l : List Node) (x : Node),
    verbatimTexts false x = [] →
    verbatimTextsL false (l.insertIdx n x) = verbatimTextsL false l := by
  intro n
  induction n with
  | zero =>
    intro l x hx
    simp [List.insertIdx_zero, verbatimTextsL, hx]
  | succ m ih =>
    intro l x hx
    cases l with
    | nil => rfl
    | cons c cs =>
      rw [List.insertIdx_succ_cons]
      simp [verbatimTextsL, ih cs x hx]

theorem verbatimTextsL_insertIdx_sub : ∀ (n : Nat) (l : List Node) (x : Node),
    List.Sublist (verbatimTextsL false l) (verbatimTextsL false (l.insertIdx n x)) := by
  intro n
  induction n with
  | zero =>
    intro l x
    rw [List.insertIdx_zero]
    have : verbatimTextsL false (x :: l) = verbatimTexts false x ++ verbatimTextsL false l := by
      simp [verbatimTextsL]
    rw [this]
    exact List.sublist_append_right _ _
  | succ m ih =>
    intro l x
    cases l with
    | nil => simp
    | cons c cs =>
      rw [List.insertIdx_succ_cons]
      have e1 : verbatimTextsL false (c :: cs.insertIdx m x)
          = verbatimTexts false c ++ verbatimTextsL false (cs.insertIdx m x) := by
        simp [verbatimTextsL]
      have e2 : verbatimTextsL false (c :: cs)
          = verbatimTexts false c ++ verbatimTextsL false cs := by
        simp [verbatimTextsL]
      rw [e1, e2]
      exact (ih cs x).append_left _

theorem applyOps_verbatim : ∀ (ops : List (String × Node)) (pref : List Node) (i : Nat)
    (rest out : List Node),
    (∀ op, op ∈ ops → verbatimTexts false op.2 = []) →
    applyOps ops pref i rest = some out →
    verbatimTextsL false out = verbatimTextsL false pref := by
  intro ops
  induction ops with
  | nil =>
    intro pref i rest out hops h
    simp only [applyOps, Option.some.injEq] at h
    subst h
    rfl
  | cons op ops ih =>
    intro pref i rest out hops h
    obtain ⟨lit, tag⟩ := op
    simp only [applyOps] at h
    split at h
    rotate_left
    · exact absurd h (by simp)
    rename_i t hg
    split at h
    rotate_left
    · exact absurd h (by simp)
    rename_i tagIdx hf
    split at h
    rotate_left
    · exact absurd h (by simp)
    rename_i be b e hp
    have htag : verbatimTexts false tag = [] := hops (lit, tag) (by simp)
    have hrec := ih _ _ _ _ (fun op hm => hops op (by simp [hm])) h
    rw [hrec]
    rw [verbatimTextsL_insertIdx_nil _ _ _ (by simp [verbatimTexts])]
    rw [verbatimTextsL_insertIdx_nil _ _ _ htag]
    exact verbatimTextsL_set_text pref i b t hg

theorem applyOps_verbatim_sub : ∀ (ops : List (String × Node)) (pref : List Node) (i : Nat)
    (rest out : List Node),
    applyOps ops pref i rest = some out →
    List.Sublist (verbatimTextsL false pref) (verbatimTextsL false out) := by
  intro ops
  induction ops with
  | nil =>
    intro pref i rest out h
    simp only [applyOps, Option.some.injEq] at h
    subst h
    exact List.Sublist.refl _
  | cons op ops ih =>
    intro pref i rest out h
    obtain ⟨lit, tag⟩ := op
    simp only [applyOps] at h
    split at h
    rotate_left
    · exact absurd h (by simp)
    rename_i t hg
    split at h
    rotate_left
    · exact absurd h (by simp)
    rename_i tagIdx hf
    split at h
    rotate_left
    · exact absurd h (by simp)
    rename_i be b e hp
    have hrec := ih _ _ _ _ h
    have h1 : verbatimTextsL false (pref.set i (.text b)) = verbatimTextsL false pref :=
      verbatimTextsL_set_text pref i b t hg
    rw [← h1]
    exact ((verbatimTextsL_insertIdx_sub (tagIdx + 1) (pref.set i (.text b)) tag).trans
      (verbatimTextsL_insertIdx_sub (tagIdx + 2) _ (.text e))).trans hrec

mutual
theorem mapTextN_verbatimTexts :
    ∀ (f : String → String) (useL : Bool) (inV inL : Bool) (c : Node),
    verbatimTexts inV (mapTextN f true useL inV inL c) = verbatimTexts inV c
  | f, useL, inV, inL, .text s => by
    by_cases hV : inV
    · simp [mapTextN, verbatimTexts, hV]
    · simp only [Bool.eq_false_iff, ne_eq] at hV
      simp only [mapTextN, hV]
      by_cases hg : (useL && inL) = true <;> simp [hg, verbatimTexts, hV]
  | f, useL, inV, inL, .elem n a cs => by
    simp only [mapTextN, verbatimTexts]
    exact mapTextL_verbatimTexts f useL (inV || VERBATIM_TAGS.contains n) (inL || n == LINK_TAG) cs
theorem mapTextL_verbatimTexts :
    ∀ (f : String → String) (useL : Bool) (inV inL : Bool) (l : List Node),
    verbatimTextsL inV (mapTextL f true useL inV inL l) = verbatimTextsL inV l
  | f, useL, inV, inL, [] => by simp [mapTextL, verbatimTextsL]
  | f, useL, inV, inL, c :: cs => by
    simp only [mapTextL, verbatimTextsL]
    rw [mapTextN_verbatimTexts f useL inV inL c, mapTextL_verbatimTexts f useL inV inL cs]
end

theorem spliceChildren_verbatim {σ : Type} (opsF : σ → String → σ × List (String × Node))
    (hemit : ∀ st s op, op ∈ (opsF st s).2 → verbatimTexts false op.2 = []) :
    ∀ (N : Nat) (inV : Bool) (st : σ) (acc rest out : List Node) (st2 : σ),
      nlsize rest ≤ N →
      spliceChildren opsF inV st acc rest = some (out, st2) →
      verbatimTextsL inV out = verbatimTextsL inV (acc ++ rest) := by
  intro N
  induction N with
  | zero =>
    intro inV st acc rest out st2 hN h
    cases rest with
    | nil =>
      simp only [spliceChildren, Option.some.injEq, Prod.mk.injEq] at h
      obtain ⟨h1, h2⟩ := h
      subst h1
      simp
    | cons c cs => exfalso; cases c <;> simp [nlsize, nsize] at hN
  | succ M ih =>
    intro inV st acc rest out st2 hN h
    cases rest with
    | nil =>
      simp only [spliceChildren, Option.some.injEq, Prod.mk.injEq] at h
      obtain ⟨h1, h2⟩ := h
      subst h1
      simp
    | cons c cs =>
      cases c with
      | text s =>
        have hcs : nlsize cs ≤ M := by simp [nlsize, nsize] at hN; omega
        simp only [spliceChildren] at h
        by_cases hv : inV
        · rw [if_pos hv] at h
          have hrec := ih inV _ _ cs out st2 hcs h
          rw [hrec]
          simp [verbatimTextsL_append, verbatimTextsL, List.append_assoc]
        · rw [if_neg hv] at h
          split at h
          rotate_left
          · exact absurd h (by simp)
          rename_i pref2 ha
          have hveq : inV = false := by simpa using hv
          subst hveq
          have hrec := ih false _ _ cs out st2 hcs h
          have happ := applyOps_verbatim _ _ _ _ _ (fun op hm => hemit st s op hm) ha
          rw [hrec, verbatimTextsL_append, happ, verbatimTextsL_append,
            verbatimTextsL_append]
          simp [verbatimTextsL, verbatimTexts]
      | elem n a kids =>
        have hkids : nlsize kids ≤ M := by simp [nlsize, nsize] at hN; omega
        have hcs : nlsize cs ≤ M := by simp [nlsize, nsize] at hN; omega
        simp only [spliceChildren, spliceElem] at h
        split at h
        rotate_left
        · exact absurd h (by simp)
        rename_i q hq
        split at hq
        rotate_left
        · exact absurd hq (by simp)
        rename_i p hp
        obtain ⟨kids2, st'⟩ := p
        simp only [Option.some.injEq] at hq
        subst hq
        simp only at h
        have hk := ih _ _ [] kids kids2 st' hkids hp
        have hrec := ih inV st' _ cs out st2 hcs h
        rw [hrec, verbatimTextsL_append, verbatimTextsL_append, verbatimTextsL_append]
        have he : verbatimTexts inV (Node.elem n a kids2) = verbatimTexts inV (Node.elem n a kids) := by
          simp only [verbatimTexts]
          rw [hk]
          simp
        simp [verbatimTextsL, he]

theorem spliceChildren_verbatim_sub {σ : Type}
    (opsF : σ → String → σ × List (String × Node)) :
    ∀ (N : Nat) (inV : Bool) (st : σ) (acc rest out : List Node) (st2 : σ),
      nlsize rest ≤ N →
      spliceChildren opsF inV st acc rest = some (out, st2) →
      List.Sublist (verbatimTextsL inV (acc ++ rest)) (verbatimTextsL inV out) := by
  intro N
  induction N with
  | zero =>
    intro inV st acc rest out st2 hN h
    cases rest with
    | nil =>
      simp only [spliceChildren, Option.some.injEq, Prod.mk.injEq] at h
      obtain ⟨h1, h2⟩ := h
      subst h1
      simp
    | cons c cs => exfalso; cases c <;> simp [nlsize, nsize] at hN
  | succ M ih =>
    intro inV st acc rest out st2 hN h
    cases rest with
    | nil =>
      simp only [spliceChildren, Option.some.injEq, Prod.mk.injEq] at h
      obtain ⟨h1, h2⟩ := h
      subst h1
      simp
    | cons c cs =>
      cases c with
      | text s =>
        have hcs : nlsize cs ≤ M := by simp [nlsize, nsize] at hN; omega
        simp only [spliceChildren] at h
        by_cases hv : inV
        · rw [if_pos hv] at h
          have hrec := ih inV _ _ cs out st2 hcs h
          refine List.Sublist.trans ?_ hrec
          simp [verbatimTextsL_append, verbatimTextsL, List.append_assoc]
        · rw [if_neg hv] at h
          split at h
          rotate_left
          · exact absurd h (by simp)
          rename_i pref2 ha
          have hveq : inV = false := by simpa using hv
          subst hveq
          have hrec := ih false _ _ cs out st2 hcs h
          have happ := applyOps_verbatim_sub _ _ _ _ _ ha
          have e1 : verbatimTextsL false (acc ++ Node.text s :: cs)
              = verbatimTextsL false (acc ++ [Node.text s]) ++ verbatimTextsL false cs := by
            rw [verbatimTextsL_append, verbatimTextsL_append]
            simp [verbatimTextsL, List.append_assoc]
          rw [e1]
          refine List.Sublist.trans ?_ hrec
          rw [verbatimTextsL_append false pref2 cs]
          exact happ.append (List.Sublist.refl _)
      | elem n a kids =>
        have hkids : nlsize kids ≤ M := by simp [nlsize, nsize] at hN; omega
        have hcs : nlsize cs ≤ M := by simp [nlsize, nsize] at hN; omega
        simp only [spliceChildren, spliceElem] at h
        split at h
        rotate_left
        · exact absurd h (by simp)
        rename_i q hq
        split at hq
        rotate_left
        · exact absurd hq (by simp)
        rename_i p hp
        obtain ⟨kids2, st'⟩ := p
        simp only [Option.some.injEq] at hq
        subst hq
        simp only at h
        have hk := ih _ _ [] kids kids2 st' hkids hp
        have hrec := ih inV st' _ cs out st2 hcs h
        refine List.Sublist.trans ?_ hrec
        have e1 : verbatimTextsL inV (acc ++ Node.elem n a kids :: cs)
            = verbatimTextsL inV acc ++ (verbatimTexts inV (Node.elem n a kids)
              ++ verbatimTextsL inV cs) := by
          rw [verbatimTextsL_append]
          simp [verbatimTextsL]
        have e2 : verbatimTextsL inV ((acc ++ [Node.elem n a kids2]) ++ cs)
            = verbatimTextsL inV acc ++ (verbatimTexts inV (Node.elem n a kids2)
              ++ verbatimTextsL inV cs) := by
          rw [verbatimTextsL_append, verbatimTextsL_append]
          simp [verbatimTextsL, List.append_assoc]
        rw [e1, e2]
        refine List.Sublist.append_left ?_ _
        refine List.Sublist.append ?_ (List.Sublist.refl _)
        simp only [verbatimTexts]
        simpa using hk

theorem spliceChildrenO_verbatim {σ : Type}
    (opsF : σ → String → Option (σ × List (String × Node)))
    (hemit : ∀ st s p op, opsF st s = some p → op ∈ p.2 → verbatimTexts false op.2 = []) :
    ∀ (N : Nat) (inV : Bool) (st : σ) (acc rest out : List Node) (st2 : σ),
      nlsize rest ≤ N →
      spliceChildrenO opsF inV st acc rest = some (out, st2) →
      verbatimTextsL inV out = verbatimTextsL inV (acc ++ rest) := by
  intro N
  induction N with
  | zero =>
    intro inV st acc rest out st2 hN h
    cases rest with
    | nil =>
      simp only [spliceChildrenO, Option.some.injEq, Prod.mk.injEq] at h
      obtain ⟨h1, h2⟩ := h
      subst h1
      simp
    | cons c cs => exfalso; cases c <;> simp [nlsize, nsize] at hN
  | succ M ih =>
    intro inV st acc rest out st2 hN h
    cases rest with
    | nil =>
      simp only [spliceChildrenO, Option.some.injEq, Prod.mk.injEq] at h
      obtain ⟨h1, h2⟩ := h
      subst h1
      simp
    | cons c cs =>
      cases c with
      | text s =>
        have hcs : nlsize cs ≤ M := by simp [nlsize, nsize] at hN; omega
        simp only [spliceChildrenO] at h
        by_cases hv : inV
        · rw [if_pos hv] at h
          have hrec := ih inV _ _ cs out st2 hcs h
          rw [hrec]
          simp [verbatimTextsL_append, verbatimTextsL, List.append_assoc]
        · rw [if_neg hv] at h
          split at h
          · exact absurd h (by simp)
          rename_i p hpe
          split at h
          rotate_left
          · exact absurd h (by simp)
          rename_i pref2 ha
          have hveq : inV = false := by simpa using hv
          subst hveq
          have hrec := ih false _ _ cs out st2 hcs h
          have happ := applyOps_verbatim _ _ _ _ _
            (fun op hm => hemit st s p op hpe hm) ha
          rw [hrec, verbatimTextsL_append, happ, verbatimTextsL_append,
            verbatimTextsL_append]
          simp [verbatimTextsL, verbatimTexts]
      | elem n a kids =>
        have hkids : nlsize kids ≤ M := by simp [nlsize, nsize] at hN; omega
        have hcs : nlsize cs ≤ M := by simp [nlsize, nsize] at hN; omega
        simp only [spliceChildrenO, spliceElemO] at h
        split at h
        rotate_left
        · exact absurd h (by simp)
        rename_i q hq
        split at hq
        rotate_left
        · exact absurd hq (by simp)
        rename_i p hp
        obtain ⟨kids2, st'⟩ := p
        simp only [Option.some.injEq] at hq
        subst hq
        simp only at h
        have hk := ih _ _ [] kids kids2 st' hkids hp
        have hrec := ih inV st' _ cs out st2 hcs h
        rw [hrec, verbatimTextsL_append, verbatimTextsL_append, verbatimTextsL_append]
        have he : verbatimTexts inV (Node.elem n a kids2)
            = verbatimTexts inV (Node.elem n a kids) := by
          simp only [verbatimTexts]
          rw [hk]
          simp
        simp [verbatimTextsL, he]

mutual
theorem rnN_verbatim : ∀ (inV hP hN : Bool) (nd out : Node),
    rnN inV hP hN nd = some out → verbatimTexts inV out = verbatimTexts inV nd
  | inV, hP, hN, .text s, out => by
    intro h
    by_cases hv : inV
    · simp only [rnN, if_pos hv, Option.some.injEq] at h
      subst h
      rfl
    · simp only [rnN, if_neg hv] at h
      obtain ⟨s2, -, h2⟩ := Option.map_eq_some'.mp h
      subst h2
      have hveq : inV = false := by simpa using hv
      subst hveq
      rfl
  | inV, hP, hN, .elem n a kids, out => by
    intro h
    simp only [rnN] at h
    obtain ⟨ks, hks, h2⟩ := Option.map_eq_some'.mp h
    subst h2
    simp only [verbatimTexts]
    exact rnL_verbatim _ false kids ks hks
theorem rnL_verbatim : ∀ (inV pe : Bool) (l out : List Node),
    rnL inV pe l = some out → verbatimTextsL inV out = verbatimTextsL inV l
  | inV, pe, [], out => by
    intro h
    simp only [rnL, Option.some.injEq] at h
    subst h
    rfl
  | inV, pe, c :: cs, out => by
    intro h
    simp only [rnL] at h
    split at h
    rotate_left
    · exact absurd h (by simp)
    rename_i c2 hc
    obtain ⟨cs2, hcs, h2⟩ := Option.map_eq_some'.mp h
    subst h2
    simp only [verbatimTextsL]
    rw [rnN_verbatim inV pe (cs.any isElemNode) c c2 hc,
      rnL_verbatim inV (pe || isElemNode c) cs cs2 hcs]
end

mutual
theorem cmshStageN_verbatim : ∀ (targets : List String) (to2 : String) (inV : Bool) (nd : Node),
    verbatimTexts inV (cmshStageN targets to2 inV nd) = verbatimTexts inV nd
  | targets, to2, inV, .text s => rfl
  | targets, to2, inV, .elem n a kids => by
    by_cases h : (inV && targets.contains n) = true
    · have hA := h
      simp only [Bool.and_eq_true] at hA
      have hv : inV = true := hA.1
      subst hv
      simp only [cmshStageN, if_pos h, verbatimTexts, Bool.true_or]
      exact cmshStageL_verbatim targets to2 true kids
    · simp only [cmshStageN, if_neg h, verbatimTexts]
      exact cmshStageL_verbatim targets to2 (inV || VERBATIM_TAGS.contains n) kids
theorem cmshStageL_verbatim : ∀ (targets : List String) (to2 : String) (inV : Bool) (l : List Node),
    verbatimTextsL inV (cmshStageL targets to2 inV l) = verbatimTextsL inV l
  | targets, to2, inV, [] => rfl
  | targets, to2, inV, c :: cs => by
    simp only [cmshStageL, verbatimTextsL]
    rw [cmshStageN_verbatim targets to2 inV c, cmshStageL_verbatim targets to2 inV cs]
end

mutual
theorem em2AN_verbatim : ∀ (underB inV : Bool) (nd : Node),
    verbatimTexts inV (em2AN underB nd) = verbatimTexts inV nd
  | underB, inV, .text s => rfl
  | underB, inV, .elem n a kids => by
    by_cases h : (underB && (n == "i" || n == "em")) = true
    · have hn : n = "i" ∨ n = "em" := by
        have hA := h
        simp only [Bool.and_eq_true] at hA
        simpa using hA.2
      have hc : VERBATIM_TAGS.contains n = false := by
        rcases hn with h1 | h1 <;> subst h1 <;> rfl
      have hc2 : VERBATIM_TAGS.contains "em2" = false := rfl
      simp only [em2AN, if_pos h, verbatimTexts, hc, hc2]
      exact em2AL_verbatim _ _ kids
    · simp only [em2AN, if_neg h, verbatimTexts]
      exact em2AL_verbatim _ _ kids
theorem em2AL_verbatim : ∀ (underB inV : Bool) (l : List Node),
    verbatimTextsL inV (em2AL underB l) = verbatimTextsL inV l
  | underB, inV, [] => rfl
  | underB, inV, c :: cs => by
    simp only [em2AL, verbatimTextsL]
    rw [em2AN_verbatim underB inV c, em2AL_verbatim underB inV cs]
end

mutual
theorem em2BN_verbatim : ∀ (underI inV : Bool) (nd : Node),
    verbatimTexts inV (em2BN underI nd) = verbatimTexts inV nd
  | underI, inV, .text s => rfl
  | underI, inV, .elem n a kids => by
    by_cases h : (underI && (n == "b" || n == "strong")) = true
    · have hn : n = "b" ∨ n = "strong" := by
        have hA := h
        simp only [Bool.and_eq_true] at hA
        simpa using hA.2
      have hc : VERBATIM_TAGS.contains n = false := by
        rcases hn with h1 | h1 <;> subst h1 <;> rfl
      have hc2 : VERBATIM_TAGS.contains "em2" = false := rfl
      simp only [em2BN, if_pos h, verbatimTexts, hc, hc2]
      exact em2BL_verbatim _ _ kids
    · simp only [em2BN, if_neg h, verbatimTexts]
      exact em2BL_verbatim _ _ kids
theorem em2BL_verbatim : ∀ (underI inV : Bool) (l : List Node),
    verbatimTextsL inV (em2BL underI l) = verbatimTextsL inV l
  | underI, inV, [] => rfl
  | underI, inV, c :: cs => by
    simp only [em2BL, verbatimTextsL]
    rw [em2BN_verbatim underI inV c, em2BL_verbatim underI inV cs]
end

mutual
theorem pqRenameN_verbatim : ∀ (inV : Bool) (nd : Node),
    verbatimTexts inV (pqRenameN nd) = verbatimTexts inV nd
  | inV, .text s => rfl
  | inV, .elem n a kids => by
    by_cases h : (n == "ul") = true
    · have hn : n = "ul" := by simpa using h
      subst hn
      simp only [pqRenameN, if_pos h, verbatimTexts]
      exact pqRenameL_verbatim _ kids
    · simp only [pqRenameN, if_neg h, verbatimTexts]
      exact pqRenameL_verbatim _ kids
theorem pqRenameL_verbatim : ∀ (inV : Bool) (l : List Node),
    verbatimTextsL inV (pqRenameL l) = verbatimTextsL inV l
  | inV, [] => rfl
  | inV, c :: cs => by
    simp only [pqRenameL, verbatimTextsL]
    rw [pqRenameN_verbatim inV c, pqRenameL_verbatim inV cs]
end

mutual
theorem diN_verbatim (ok : String → Bool) (loc : Nat → String → String) :
    ∀ (inV : Bool) (idx : Nat) (nd : Node),
    verbatimTexts inV (diN ok loc idx nd).1 = verbatimTexts inV nd
  | inV, idx, .text s => rfl
  | inV, idx, .elem n a kids => by
    by_cases h : (n == "img") = true
    · have hn : n = "img" := by simpa using h
      subst hn
      simp only [diN, if_pos h]
      have hname : ∀ (p : String × List (String × String)),
          (p.1 = "link" ∨ p.1 = "img") →
          verbatimTexts inV (Node.elem p.1 p.2 (diL ok loc (idx + 1) kids).1)
            = verbatimTexts inV (Node.elem "img" a kids) := by
        intro p hp
        have hc : VERBATIM_TAGS.contains p.1 = false := by
          rcases hp with h1 | h1 <;> rw [h1] <;> rfl
        have hc2 : VERBATIM_TAGS.contains "img" = false := rfl
        simp only [verbatimTexts, hc, hc2]
        exact diL_verbatim ok loc _ (idx + 1) kids
      refine hname _ ?_
      cases hsrc : attrsGet a "src" with
      | none => simp [hsrc]
      | some url =>
        by_cases hok : ok url = true
        · simp [hsrc, hok]
        · simp [hsrc, hok]
    · simp only [diN, if_neg h, verbatimTexts]
      exact diL_verbatim ok loc _ idx kids
theorem diL_verbatim (ok : String → Bool) (loc : Nat → String → String) :
    ∀ (inV : Bool) (idx : Nat) (l : List Node),
    verbatimTextsL inV (diL ok loc idx l).1 = verbatimTextsL inV l
  | inV, idx, [] => rfl
  | inV, idx, c :: cs => by
    simp only [diL, verbatimTextsL]
    rw [diN_verbatim ok loc inV idx c, diL_verbatim ok loc inV _ cs]
end

theorem footnote_tag_verbatim (s : String) :
    verbatimTexts false (Node.elem "sup" [] [Node.text s]) = [] := rfl

theorem footnoteOpsGo_verbatim : ∀ (ms : List (String × String)) (c : Nat)
    (op : String × Node), op ∈ (footnoteOpsGo c ms).2 → verbatimTexts false op.2 = [] := by
  intro ms
  induction ms with
  | nil => intro c op h; simp [footnoteOpsGo] at h
  | cons m ms ih =>
    intro c op h
    simp only [footnoteOpsGo, List.mem_cons] at h
    rcases h with h | h
    · subst h
      exact footnote_tag_verbatim _
    · exact ih _ op h

theorem latexLinkTag_verbatim (f : String) : verbatimTexts false (latexLinkTag f) = [] := rfl

theorem latexOpsGo_verbatim (ok : String → Bool → Bool) (fname : String → String) :
    ∀ (ms : List (String × String × Bool)) (st : LatexMemos) (op : String × Node),
    op ∈ (latexOpsGo ok fname ms st).2 → verbatimTexts false op.2 = [] := by
  intro ms
  induction ms with
  | nil => intro st op h; simp [latexOpsGo] at h
  | cons m ms ih =>
    intro st op h
    obtain ⟨valid, compiled⟩ := st
    simp only [latexOpsGo] at h
    by_cases h1 : (alistGet valid m.2.1 == some false) = true
    · rw [if_pos h1] at h
      exact ih _ op h
    · rw [if_neg h1] at h
      by_cases h2 : (alistGet compiled m.1).isNone = true
      · rw [if_pos h2] at h
        by_cases h3 : ok m.2.1 m.2.2 = true
        · rw [if_pos h3] at h
          simp only [List.mem_cons] at h
          rcases h with h | h
          · subst h; exact latexLinkTag_verbatim _
          · exact ih _ op h
        · rw [if_neg h3] at h
          exact ih _ op h
      · rw [if_neg h2] at h
        simp only [List.mem_cons] at h
        rcases h with h | h
        · subst h; exact latexLinkTag_verbatim _
        · exact ih _ op h

theorem imgTag_verbatim (u : String) : verbatimTexts false (imgTag u) = [] := rfl

theorem imgurMatchOp_shape (fetch : String → Option (Option String))
    (m : String × Option String × String × Option String) (op : String × Node)
    (h : imgurMatchOp fetch m = some (some op)) : ∃ u, op.2 = imgTag u := by
  simp only [imgurMatchOp] at h
  split at h
  · simp only [Option.some.injEq] at h
    exact ⟨_, by rw [← h]⟩
  · split at h
    · exact absurd h (by simp)
    · exact absurd h (by simp)
    · split at h
      · exact absurd h (by simp)
      · simp only [Option.some.injEq] at h
        exact ⟨_, by rw [← h]⟩

theorem imgurOpsList_verbatim (fetch : String → Option (Option String)) :
    ∀ (ms : List (String × Option String × String × Option String))
      (ops : List (String × Node)) (op : String × Node),
    imgurOpsList fetch ms = some ops → op ∈ ops → verbatimTexts false op.2 = [] := by
  intro ms
  induction ms with
  | nil =>
    intro ops op h hm
    simp only [imgurOpsList, Option.some.injEq] at h
    subst h
    simp at hm
  | cons m ms ih =>
    intro ops op h hm
    simp only [imgurOpsList] at h
    cases hop : imgurMatchOp fetch m with
    | none => rw [hop] at h; simp at h
    | some o =>
      rw [hop] at h
      cases o with
      | none => exact ih ops op h hm
      | some op1 =>
        obtain ⟨r, hr, h2⟩ := Option.map_eq_some'.mp h
        subst h2
        simp only [List.mem_cons] at hm
        rcases hm with hm | hm
        · subst hm
          obtain ⟨u, hu⟩ := imgurMatchOp_shape fetch m _ hop
          rw [hu]
          exact imgTag_verbatim u
        · exact ih r op hr hm

mutual
theorem asqRebuildN_verbatim (tags : List (String × Bool)) :
    ∀ (inV : Bool) (k : Nat) (nd out : Node) (k2 : Nat),
      asqRebuildN tags k nd = some (out, k2) →
      (∀ j, j < (textsWithFlags inV nd).length →
        tags.get? (k + j) = (textsWithFlags inV nd).get? j) →
      k2 = k + (textsWithFlags inV nd).length ∧
        verbatimTexts inV out = verbatimTexts inV nd
  | inV, k, .text s, out, k2 => by
    intro h htags
    simp only [asqRebuildN] at h
    obtain ⟨s2, hasq, heq⟩ := Option.map_eq_some'.mp h
    simp only [Prod.mk.injEq] at heq
    obtain ⟨hout, hk2⟩ := heq
    subst hout
    have hget : tags.get? k = some (s, inV) := by
      have := htags 0 (by simp [textsWithFlags])
      simpa [textsWithFlags] using this
    cases inV with
    | false =>
      refine ⟨?_, rfl⟩
      simp [textsWithFlags, ← hk2]
    | true =>
      have hs2 : s2 = s := by
        simp only [asqNewText, hget, if_pos] at hasq
        exact (Option.some.injEq _ _ ▸ hasq.symm)
      subst hs2
      refine ⟨?_, rfl⟩
      simp [textsWithFlags, ← hk2]
  | inV, k, .elem n a kids, out, k2 => by
    intro h htags
    simp only [asqRebuildN] at h
    obtain ⟨p, hp, heq⟩ := Option.map_eq_some'.mp h
    simp only [Prod.mk.injEq] at heq
    obtain ⟨hout, hk2⟩ := heq
    subst hout
    subst hk2
    simp only [textsWithFlags] at htags ⊢
    have := asqRebuildL_verbatim tags (inV || VERBATIM_TAGS.contains n) k kids p.1 p.2 hp htags
    refine ⟨this.1, ?_⟩
    simp only [verbatimTexts]
    exact this.2
theorem asqRebuildL_verbatim (tags : List (String × Bool)) :
    ∀ (inV : Bool) (k : Nat) (l out : List Node) (k2 : Nat),
      asqRebuildL tags k l = some (out, k2) →
      (∀ j, j < (textsWithFlagsL inV l).length →
        tags.get? (k + j) = (textsWithFlagsL inV l).get? j) →
      k2 = k + (textsWithFlagsL inV l).length ∧
        verbatimTextsL inV out = verbatimTextsL inV l
  | inV, k, [], out, k2 => by
    intro h htags
    simp only [asqRebuildL, Option.some.injEq, Prod.mk.injEq] at h
    obtain ⟨h1, h2⟩ := h
    subst h1
    subst h2
    simp [textsWithFlagsL]
  | inV, k, c :: cs, out, k2 => by
    intro h htags
    simp only [asqRebuildL] at h
    split at h
    rotate_left
    · exact absurd h (by simp)
    rename_i q hq
    obtain ⟨p, hp, heq⟩ := Option.map_eq_some'.mp h
    simp only [Prod.mk.injEq] at heq
    obtain ⟨hout, hk2⟩ := heq
    subst hout
    subst hk2
    have hlen : (textsWithFlagsL inV (c :: cs)).length
        = (textsWithFlags inV c).length + (textsWithFlagsL inV cs).length := by
      simp [textsWithFlagsL]
    have htc : ∀ j, j < (textsWithFlags inV c).length →
        tags.get? (k + j) = (textsWithFlags inV c).get? j := by
      intro j hj
      have hb : j < (textsWithFlagsL inV (c :: cs)).length := by omega
      have := htags j hb
      rw [this]
      have : textsWithFlagsL inV (c :: cs)
          = textsWithFlags inV c ++ textsWithFlagsL inV cs := by simp [textsWithFlagsL]
      rw [this]
      exact List.get?_append hj
    obtain ⟨hq2, hvc⟩ := asqRebuildN_verbatim tags inV k c q.1 q.2 hq htc
    have htcs : ∀ j, j < (textsWithFlagsL inV cs).length →
        tags.get? (q.2 + j) = (textsWithFlagsL inV cs).get? j := by
      intro j hj
      have hb : (textsWithFlags inV c).length + j
          < (textsWithFlagsL inV (c :: cs)).length := by omega
      have h1 := htags ((textsWithFlags inV c).length + j) hb
      have he : textsWithFlagsL inV (c :: cs)
          = textsWithFlags inV c ++ textsWithFlagsL inV cs := by simp [textsWithFlagsL]
      rw [he] at h1
      rw [hq2]
      have h2 : (textsWithFlags inV c ++ textsWithFlagsL inV cs).get?
          ((textsWithFlags inV c).length + j) = (textsWithFlagsL inV cs).get? j := by
        rw [List.get?_append_right (by omega)]
        congr 1
        omega
      rw [h2] at h1
      have harith : k + ((textsWithFlags inV c).length + j)
          = k + (textsWithFlags inV c).length + j := by omega
      rw [harith] at h1
      exact h1
    obtain ⟨hp2, hvcs⟩ := asqRebuildL_verbatim tags inV q.2 cs p.1 p.2 hp htcs
    constructor
    · rw [hp2, hq2, hlen]
      omega
    · have e1 : verbatimTextsL inV (q.1 :: p.1)
          = verbatimTexts inV q.1 ++ verbatimTextsL inV p.1 := by simp [verbatimTextsL]
      have e2 : verbatimTextsL inV (c :: cs)
          = verbatimTexts inV c ++ verbatimTextsL inV cs := by simp [verbatimTextsL]
      rw [e1, e2, hvc, hvcs]
end

/-- C1 (amended): the verbatim-region invariant holds for every pipeline
pass except `format_code_blocks` (excluded by the claim itself) and the
three passes refuted by `C1_counterexample` (`normalize_newlines`, which has
no `keep_verbatim` guard; `process_captions`, which rewrites captions inside
verbatim regions; `fix_lists`, which flattens lists inside verbatim
regions).  For each remaining pass: the document-ordered list of string
contents of text nodes inside protected `pre`/`code` regions is unchanged —
for `replace_inline_code` the pass creates new `code` (hence verbatim)
elements, so its original protected texts survive byte-for-byte as a
sublist.  Collaborator-dependent passes are quantified over their
collaborator parameters. -/
theorem C1_verbatim_invariant :
    (∀ (fetch : String → Option (Option String)) (doc out : Doc),
      convert_imgur_embeds fetch doc = some out →
      verbatimTextsL false out = verbatimTextsL false doc) ∧
    (∀ (ok : String → Bool) (loc : Nat → String → String) (doc : Doc),
      verbatimTextsL false (download_images ok loc doc) = verbatimTextsL false doc) ∧
    (∀ (ok : String → Bool → Bool) (fname : String → String) (doc out : Doc),
      compile_latex ok fname doc = some out →
      verbatimTextsL false out = verbatimTextsL false doc) ∧
    (∀ (doc out : Doc), replace_inline_code doc = some out →
      List.Sublist (verbatimTextsL false doc) (verbatimTextsL false out)) ∧
    (∀ (nB nI nU : String) (doc : Doc),
      verbatimTextsL false (convert_manual_highlighting nB nI nU doc)
        = verbatimTextsL false doc) ∧
    (∀ (doc out : Doc), replace_newlines doc = some out →
      verbatimTextsL false out = verbatimTextsL false doc) ∧
    (∀ (doc : Doc), verbatimTextsL false (replace_ellipses doc) = verbatimTextsL false doc) ∧
    (∀ (doc out : Doc), replace_links doc = some out →
      verbatimTextsL false out = verbatimTextsL false doc) ∧
    (∀ (doc : Doc), verbatimTextsL false (replace_dashes doc) = verbatimTextsL false doc) ∧
    (∀ (doc out : Doc), add_smart_quotes doc = some out →
      verbatimTextsL false out = verbatimTextsL false doc) ∧
    (∀ (doc : Doc),
      verbatimTextsL false (punctuation_in_quotes doc) = verbatimTextsL false doc) ∧
    (∀ (doc : Doc),
      verbatimTextsL false (remove_extraneous_spaces doc) = verbatimTextsL false doc) ∧
    (∀ (doc : Doc),
      verbatimTextsL false (footnote_after_punctuation doc) = verbatimTextsL false doc) ∧
    (∀ (doc out : Doc), add_footnotes doc = some out →
      verbatimTextsL false out = verbatimTextsL false doc) ∧
    (∀ (doc : Doc), verbatimTextsL false (convert_emphasis_2 doc) = verbatimTextsL false doc) ∧
    (∀ (title : String) (doc : Doc),
      verbatimTextsL false (convert_profquotes title doc) = verbatimTextsL false doc) ∧
    (∀ (doc : Doc),
      verbatimTextsL false (hairspace_fractions_out_of_10 doc) = verbatimTextsL false doc) := by
  refine ⟨?_, ?_, ?_, ?_, ?_, ?_, ?_, ?_, ?_, ?_, ?_, ?_, ?_, ?_, ?_, ?_, ?_⟩
  · intro fetch doc out h
    obtain ⟨p, hp, hout⟩ := Option.map_eq_some'.mp h
    obtain ⟨o, st2⟩ := p
    subst hout
    have hemit : ∀ (st : Unit) (s : String) (p : Unit × List (String × Node))
        (op : String × Node),
        (fun (_ : Unit) s =>
          (imgurOpsList fetch (imgurEmbedFinditer (s.data.length + 1) s.data)).map
            (fun ops => ((), ops))) st s = some p → op ∈ p.2 →
        verbatimTexts false op.2 = [] := by
      intro st s p op hps hm
      obtain ⟨ops, hops, hpe⟩ := Option.map_eq_some'.mp hps
      subst hpe
      exact imgurOpsList_verbatim fetch _ ops op hops (by simpa using hm)
    have := spliceChildrenO_verbatim _ hemit (nlsize doc) false () [] doc o st2 (le_refl _) hp
    simpa using this
  · intro ok loc doc
    exact diL_verbatim ok loc false 0 doc
  · intro ok fname doc out h
    obtain ⟨p, hp, hout⟩ := Option.map_eq_some'.mp h
    obtain ⟨o, st2⟩ := p
    subst hout
    have hemit : ∀ (st : LatexMemos) (s : String) (op : String × Node),
        op ∈ (latexOps ok fname st s).2 → verbatimTexts false op.2 = [] := by
      intro st s op hm
      exact latexOpsGo_verbatim ok fname _ st op hm
    have := spliceChildren_verbatim _ hemit (nlsize doc) false ([], []) [] doc o st2
      (le_refl _) hp
    simpa using this
  · intro doc out h
    obtain ⟨p, hp, hout⟩ := Option.map_eq_some'.mp h
    obtain ⟨o, st2⟩ := p
    subst hout
    have := spliceChildren_verbatim_sub _ (nlsize doc) false () [] doc o st2 (le_refl _) hp
    simpa using this
  · intro nB nI nU doc
    simp [convert_manual_highlighting, cmshStageL_verbatim]
  · intro doc out h
    exact rnL_verbatim false false doc out h
  · intro doc
    exact mapTextL_verbatimTexts _ false false false doc
  · intro doc out h
    obtain ⟨p, hp, hout⟩ := Option.map_eq_some'.mp h
    obtain ⟨o, st2⟩ := p
    subst hout
    have hemit : ∀ (st : Unit) (s : String) (op : String × Node),
        op ∈ ((fun (_ : Unit) s =>
          ((), (linkFinditer (s.data.length + 1) s.data).map
            (fun m => (m, Node.elem "link" [("href", m)] [Node.text m])))) st s).2 →
        verbatimTexts false op.2 = [] := by
      intro st s op hm
      simp only at hm
      obtain ⟨m, hmm, hop⟩ := List.mem_map.mp hm
      rw [← hop]
      rfl
    have := spliceChildren_verbatim _ hemit (nlsize doc) false () [] doc o st2 (le_refl _) hp
    simpa using this
  · intro doc
    exact mapTextL_verbatimTexts _ true false false doc
  · intro doc out h
    obtain ⟨p, hp, hout⟩ := Option.map_eq_some'.mp h
    obtain ⟨o, k2⟩ := p
    subst hout
    have htags : ∀ j, j < (textsWithFlagsL false doc).length →
        (textsWithFlagsL false doc).get? (0 + j) = (textsWithFlagsL false doc).get? j := by
      intro j hj
      rw [Nat.zero_add]
    exact (asqRebuildL_verbatim (textsWithFlagsL false doc) false 0 doc o k2 hp htags).2
  · intro doc
    exact mapTextL_verbatimTexts _ false false false doc
  · intro doc
    exact mapTextL_verbatimTexts _ false false false doc
  · intro doc
    exact mapTextL_verbatimTexts _ false false false doc
  · intro doc out h
    obtain ⟨p, hp, hout⟩ := Option.map_eq_some'.mp h
    obtain ⟨o, st2⟩ := p
    subst hout
    have hemit : ∀ (st : Nat) (s : String) (op : String × Node),
        op ∈ (footnoteOps st s).2 → verbatimTexts false op.2 = [] := by
      intro st s op hm
      exact footnoteOpsGo_verbatim _ st op hm
    have := spliceChildren_verbatim _ hemit (nlsize doc) false 1 [] doc o st2 (le_refl _) hp
    simpa using this
  · intro doc
    simp [convert_emphasis_2, em2BL_verbatim, em2AL_verbatim]
  · intro title doc
    by_cases h : (title == "profQUOTES") = true
    · simp [convert_profquotes, h, pqRenameL_verbatim]
    · simp [convert_profquotes, h]
  · intro doc
    exact mapTextL_verbatimTexts _ false false false doc

/-- C1 counterexample: three passes (besides `format_code_blocks`) do alter
text inside protected verbatim regions, refuting the original claim.
`normalize_newlines` has no `keep_verbatim` guard and rewrites CRLF inside a
`pre`; `process_captions` rewrites a caption inside a `pre`, dropping its
leading space; `fix_lists` flattens a list inside a `pre`, dropping its
string child. -/
theorem C1_counterexample :
    (normalize_newlines [Node.elem "pre" [] [Node.text "a\r\nb"]]
        = [Node.elem "pre" [] [Node.text "a\nb"]] ∧
      verbatimTextsL false [Node.elem "pre" [] [Node.text "a\nb"]]
        ≠ verbatimTextsL false [Node.elem "pre" [] [Node.text "a\r\nb"]]) ∧
    (process_captions [Node.elem "pre" [] [Node.elem "caption" [] [Node.text " x"]]]
        = some [Node.elem "pre" [] [Node.elem "figcaption" [] [Node.text "x"]]] ∧
      verbatimTextsL false [Node.elem "pre" [] [Node.elem "figcaption" [] [Node.text "x"]]]
        ≠ verbatimTextsL false
            [Node.elem "pre" [] [Node.elem "caption" [] [Node.text " x"]]]) ∧
    (fix_lists [Node.elem "pre" []
          [Node.elem "ul" [] [Node.elem "li" [] [Node.text "a"], Node.text "x"]]]
        = some [Node.elem "pre" []
          [Node.elem "ul" [] [Node.elem "ul_first" [] [Node.text "a"]]]] ∧
      verbatimTextsL false
          [Node.elem "pre" [] [Node.elem "ul" [] [Node.elem "ul_first" [] [Node.text "a"]]]]
        ≠ verbatimTextsL false [Node.elem "pre" []
          [Node.elem "ul" [] [Node.elem "li" [] [Node.text "a"], Node.text "x"]]]) :=
  ⟨⟨rfl, by decide⟩, ⟨rfl, by decide⟩, ⟨rfl, by decide⟩⟩

/-- Witness for C1: the hypothesis-bearing conjuncts instantiated at
concrete articles whose protected region holds the text `v`. -/
theorem C1_witness :
    (verbatimTextsL false [Node.elem "pre" [] [Node.text "v"], Node.text "",
        imgTag "https://i.imgur.com/fghij.png", Node.text ""]
      = verbatimTextsL false [Node.elem "pre" [] [Node.text "v"],
        Node.text "[embed]//imgur.com/fghij.png[/embed]"]) ∧
    (verbatimTextsL false [Node.elem "pre" [] [Node.text "v"], Node.text "",
        latexLinkTag "F", Node.text ""]
      = verbatimTextsL false [Node.elem "pre" [] [Node.text "v"], Node.text "\\(x\\)"]) ∧
    List.Sublist
      (verbatimTextsL false [Node.elem "pre" [] [Node.text "v"], Node.text "x `c` y"])
      (verbatimTextsL false [Node.elem "pre" [] [Node.text "v"], Node.text "x ",
        Node.elem "code" [] [Node.text "c"], Node.text " y"]) ∧
    (verbatimTextsL false [Node.elem "pre" [] [Node.text "v"], Node.text "a b"]
      = verbatimTextsL false [Node.elem "pre" [] [Node.text "v"], Node.text "a\nb"]) ∧
    (verbatimTextsL false [Node.elem "pre" [] [Node.text "v"], Node.text "go ",
        Node.elem "link" [("href", "x.ca")] [Node.text "x.ca"], Node.text " now"]
      = verbatimTextsL false [Node.elem "pre" [] [Node.text "v"], Node.text "go x.ca now"]) ∧
    (verbatimTextsL false [Node.elem "pre" [] [Node.text "v"], Node.text "a”b"]
      = verbatimTextsL false [Node.elem "pre" [] [Node.text "v"], Node.text "a\"b"]) ∧
    (verbatimTextsL false [Node.elem "pre" [] [Node.text "v"], Node.text "a",
        Node.elem "sup" [] [Node.text "1"], Node.text "b"]
      = verbatimTextsL false [Node.elem "pre" [] [Node.text "v"], Node.text "a[1]b"]) :=
  ⟨C1_verbatim_invariant.1 (fun _ => none) _ _ rfl,
   C1_verbatim_invariant.2.2.1 (fun _ _ => true) (fun _ => "F") _ _ rfl,
   C1_verbatim_invariant.2.2.2.1 _ _ rfl,
   C1_verbatim_invariant.2.2.2.2.2.1 _ _ rfl,
   C1_verbatim_invariant.2.2.2.2.2.2.2.1 _ _ rfl,
   C1_verbatim_invariant.2.2.2.2.2.2.2.2.2.1 _ _ rfl,
   C1_verbatim_invariant.2.2.2.2.2.2.2.2.2.2.2.2.2.1 _ _ rfl⟩

/-- C2 counterexample: with an earlier sibling text node of the same string
value, `parent.contents.index(text_tag)` finds the earlier sibling, so the
replacement tag and the suffix node are inserted next to it — the node is
not replaced at its original position and the relative order of the other
siblings (here the `b` element) changes.  The claim-expected output would be
`[ax, b, a, r, ""]`; the code produces `[ax, r, "", b, a]`. -/
theorem C2_counterexample :
    replace_text_with_tag "x" (.elem "r" [] [])
        [Node.text "ax", Node.elem "b" [] [], Node.text "ax"] 2
      = some ([Node.text "ax", Node.elem "r" [] [], Node.text "",
          Node.elem "b" [] [], Node.text "a"], Node.text "") ∧
    [Node.text "ax", Node.elem "r" [] [], Node.text "",
        Node.elem "b" [] [], Node.text "a"]
      ≠ [Node.text "ax", Node.elem "b" [] [], Node.text "a",
          Node.elem "r" [] [], Node.text ""] :=
  ⟨rfl, by decide⟩
